import Mathlib

/-!
Verification of the JSON-to-relational decomposition engine of `data_prep.py`
(`index_json`, `insert_data`, `process_nested_data`, `create_table`,
`create_schema_tables`, `create_metadata_views`).

Modelling decisions, all taken from the source:

* JSON values are modelled by the inductive type `Json`.  JSON numbers are
  modelled as integers (the documents appearing in the specification's claims
  contain only integers; float formatting is outside the model's scope).
  Python dictionaries preserve insertion order, so objects carry an ordered
  association list.

* The engine never reads from the database while indexing: every
  `conn.execute` call made by `index_json` and its helpers is a write whose
  result is discarded.  The engine is therefore factored into
  (1) a pure trace generator (`insert_data`, `processFields`,
  `process_nested_data`, `index_json_ops`) that mirrors the Python call
  structure line by line and emits the sequence of storage statements, and
  (2) an interpreter `applyOp`/`runOpsFrom` giving the DuckDB semantics of
  each statement.  A Python exception stops execution at the failing
  statement; `runOpsFrom` likewise stops at the first failing operation and
  reports its error, keeping the state reached so far.

* `uuid.uuid4()` is modelled by a freshness counter threaded through the
  generator: the only property of uuid4 the engine relies on is that ids are
  fresh and distinct.

* Python's `str()` applied to decoded JSON values is modelled by `pyStr`
  (`str` of a string is the string itself; containers render their elements
  with `repr`, choosing quotes the way CPython does; escaping of
  non-printable characters is not modelled, the claims' inputs are plain).

* `schema = set(); schema.update(item.keys())` builds a Python `set`, whose
  iteration order is implementation defined (string hashing is randomized
  per process).  The model fixes one concrete enumeration — order of first
  insertion (`setInsert`/`unionKeys`) — and every theorem about an inferred
  column *set* is stated so that it does not depend on this choice (set
  membership / permutation).  No theorem below asserts anything about the
  enumeration order itself.

* DuckDB statement semantics modelled in `applyOp`:
  - `CREATE TABLE IF NOT EXISTS "t" (record_id UUID PRIMARY KEY, ...)`
    with an empty column list produces `(record_id UUID PRIMARY KEY, )` —
    a trailing comma, rejected by the parser.  Same for
    `INSERT INTO "t" (record_id, ) VALUES (?, )` built from an empty dict.
  - a zero-length quoted identifier (`""`) is rejected by the parser
    (DuckDB follows the PostgreSQL rule: zero-length delimited identifier);
    an identifier containing the quote character would break the
    string-built statement and is likewise modelled as an error.
  - inserting into a missing table, naming a column the table does not
    have, duplicating a column in the column list, or violating the
    `record_id` primary key are binder/constraint errors.
  - `INSERT OR REPLACE INTO schema_info` upserts by the `table_name`
    primary key.
  - `record_relationships` has no constraints; appends always succeed.
  The two bookkeeping tables created by `create_schema_tables` are the
  dedicated fields `schema_info` and `rels` of `DB`, present from the start.

* The vector-store branches (`qdrant_client`/`embedder`) are disabled in the
  model (parameters default to `None` in the orchestration path modelled
  here), the `data_overview` view and the final `commit`/`close`/`print` have
  no bearing on any claim, and a run starts on a fresh destination
  (`initDB`).
-/

inductive Json where
  | null : Json
  | bool (b : Bool) : Json
  | num (n : Int) : Json
  | str (s : String) : Json
  | arr (xs : List Json) : Json
  | obj (kvs : List (String × Json)) : Json

mutual

def Json.size : Json → Nat
  | .null => 1
  | .bool _ => 1
  | .num _ => 1
  | .str _ => 1
  | .arr xs => 1 + Json.sizeArr xs
  | .obj kvs => 1 + Json.sizeObj kvs

def Json.sizeArr : List Json → Nat
  | [] => 0
  | x :: xs => 1 + Json.size x + Json.sizeArr xs

def Json.sizeObj : List (String × Json) → Nat
  | [] => 0
  | kv :: kvs => 1 + Json.size kv.2 + Json.sizeObj kvs

end

/-- Python `isinstance(v, dict)`. -/
def Json.isObj : Json → Bool
  | .obj _ => true
  | _ => false

/-- Python truthiness test `isinstance(value, (dict, list)) and value`
(lines 84 and 109 of `data_prep.py`): a non-empty dict or list. -/
def Json.isTruthyContainer : Json → Bool
  | .obj kvs => !kvs.isEmpty
  | .arr xs => !xs.isEmpty
  | _ => false

/-- Escape one character of a Python string literal rendered with quote
character `q`: CPython's `repr` escapes the backslash and the chosen quote. -/
def pyEscChar (q : Char) (c : Char) : String :=
  if c = Char.ofNat 92 then String.singleton (Char.ofNat 92) ++ String.singleton (Char.ofNat 92)
  else if c = q then String.singleton (Char.ofNat 92) ++ String.singleton q
  else String.singleton c

/-- CPython `repr` of a string: single quotes, unless the string contains a
single quote and no double quote, in which case double quotes. -/
def pyQuote (s : String) : String :=
  let sq := Char.ofNat 39
  let dq := Char.ofNat 34
  if s.toList.contains sq && !(s.toList.contains dq) then
    String.singleton dq ++ String.join (s.toList.map (pyEscChar dq)) ++ String.singleton dq
  else
    String.singleton sq ++ String.join (s.toList.map (pyEscChar sq)) ++ String.singleton sq

mutual

/-- Python `str(v)` for a value decoded from JSON (`data_prep.py` applies
`str` to every stored value, line 71 and line 96). -/
def pyStr : Json → String
  | .null => "None"
  | .bool true => "True"
  | .bool false => "False"
  | .num n => toString n
  | .str s => s
  | .arr xs => "[" ++ pyStrArr xs ++ "]"
  | .obj kvs => "\x7b" ++ pyStrObj kvs ++ "\x7d"
termination_by j => 2 * Json.size j
decreasing_by all_goals first | omega | (simp only [Json.size, Json.sizeArr, Json.sizeObj]; omega)

/-- Python `repr(v)`: differs from `str` only on strings. -/
def pyRepr : Json → String
  | .str s => pyQuote s
  | j => pyStr j
termination_by j => 2 * Json.size j + 1
decreasing_by all_goals first | omega | (simp only [Json.size, Json.sizeArr, Json.sizeObj]; omega)

/-- Renders `", ".join(repr(x) for x in xs)`. -/
def pyStrArr : List Json → String
  | [] => ""
  | [x] => pyRepr x
  | x :: xs => pyRepr x ++ ", " ++ pyStrArr xs
termination_by xs => 2 * Json.sizeArr xs + 1
decreasing_by all_goals first | omega | (simp only [Json.size, Json.sizeArr, Json.sizeObj]; omega)

/-- Renders `", ".join(repr(k) + ": " + repr(v))` for a dict body. -/
def pyStrObj : List (String × Json) → String
  | [] => ""
  | [kv] => pyQuote kv.1 ++ ": " ++ pyRepr kv.2
  | kv :: kvs => pyQuote kv.1 ++ ": " ++ pyRepr kv.2 ++ ", " ++ pyStrObj kvs
termination_by kvs => 2 * Json.sizeObj kvs + 1
decreasing_by all_goals first | omega | (simp only [Json.size, Json.sizeArr, Json.sizeObj]; omega)

end

/-- Keys of an object (`item.keys()`); empty for non-objects. -/
def Json.keys : Json → List String
  | .obj kvs => kvs.map Prod.fst
  | _ => []

/-- Python `set.add`: the model enumerates a `set` of strings in order of
first insertion (the real iteration order of a CPython `set` is unspecified;
see the header note — no theorem depends on this order). -/
def setInsert (l : List String) (x : String) : List String :=
  if x ∈ l then l else l ++ [x]

/-- Python `set.update(keys)`. -/
def setUpdate (l : List String) (ks : List String) : List String :=
  ks.foldl setInsert l

/-- The schema-inference loop
`schema = set(); for item in data: schema.update(item.keys())`
(lines 119-121 and 221-223 of `data_prep.py`). -/
def unionKeys (items : List Json) : List String :=
  items.foldl (fun acc it => setUpdate acc it.keys) []

/-- One row of the `schema_info` catalog table (`create_schema_tables`). -/
structure SchemaRow where
  table_name : String
  parent_table : Option String
  description : Option String
  is_array : Bool
  count : Option Nat
deriving DecidableEq

/-- One data table of the storage backend: its name and its data columns in
creation order (besides the implicit `record_id` key column). -/
structure StorageTable where
  name : String
  columns : List String
deriving DecidableEq

/-- One inserted data row: the generated record id, the target table, and the
explicitly provided column/value pairs.  A column of the table that is not
listed here was absent from the `INSERT` and holds SQL `NULL`. -/
structure RecordRow where
  record_id : Nat
  table : String
  values : List (String × String)
deriving DecidableEq

/-- One row of `record_relationships`. -/
structure RelRow where
  child_id : Nat
  parent_id : Nat
  child_table : String
  parent_table : Option String
  relationship_type : String
deriving DecidableEq

/-- A storage statement issued by the engine. -/
inductive StorageOp where
  | createTable (name : String) (columns : List String)
  | putSchema (row : SchemaRow)
  | insertRecord (table : String) (id : Nat) (vals : List (String × String))
  | insertRel (row : RelRow)
deriving DecidableEq

/-- The state of one destination database. -/
structure DB where
  tables : List StorageTable
  schema_info : List SchemaRow
  records : List RecordRow
  rels : List RelRow
deriving DecidableEq

def initDB : DB := ⟨[], [], [], []⟩

/-- Storage-backend failures. -/
inductive Err where
  | badIdent (ident : String)
  | trailingComma (table : String)
  | dupColumn (table : String)
  | noSuchTable (table : String)
  | noSuchColumn (table : String) (col : String)
  | dupKey (table : String) (id : Nat)
  | injected (i : Nat)
deriving DecidableEq

/-- The Python function `create_table(conn, table_name, schema, parent_table,
is_array, count, description)` (lines 40-54): one `CREATE TABLE IF NOT
EXISTS` for the data table followed by one `INSERT OR REPLACE INTO
schema_info`. -/
def create_table (tableName : String) (schema : List String)
    (parentTable : Option String) (isArray : Bool) (count : Option Nat)
    (description : Option String) : List StorageOp :=
  [.createTable tableName schema,
   .putSchema ⟨tableName, parentTable, description, isArray, count⟩]

mutual

/-- The Python function `insert_data(conn, table_name, data, parent_id,
parent_table)` (lines 56-111).  The second component is the updated
freshness counter for record ids. -/
def insert_data (tableName : String) (data : Json) (parentId : Option Nat)
    (parentTable : Option String) (nid : Nat) : List StorageOp × Nat :=
  match data with
  | .arr items =>
      -- for i, item in enumerate(data): ...
      insertItems tableName items parentId parentTable nid 0
  | .obj kvs =>
      -- record_id = uuid.uuid4(); INSERT the record
      let ops1 := [StorageOp.insertRecord tableName nid
        (kvs.map (fun kv => (kv.1, pyStr kv.2)))]
      -- if parent_id: INSERT INTO record_relationships ... "object_field"
      let ops2 : List StorageOp :=
        match parentId with
        | some pid => [.insertRel ⟨nid, pid, tableName, parentTable, "object_field"⟩]
        | none => []
      -- for key, value in data.items(): ... process_nested_data
      let r3 := processFields tableName kvs nid (nid + 1)
      (ops1 ++ ops2 ++ r3.1, r3.2)
  | _ => ([], nid)
termination_by 3 * Json.size data
decreasing_by all_goals first | omega | (simp only [Json.size, Json.sizeArr, Json.sizeObj]; omega)

/-- The `for i, item in enumerate(data)` loop of the list branch of
`insert_data` (lines 62-86): non-dict items are skipped, dict items are
inserted, linked to the parent when there is one, and their nested fields are
processed. -/
def insertItems (tableName : String) (items : List Json) (parentId : Option Nat)
    (parentTable : Option String) (nid : Nat) (i : Nat) : List StorageOp × Nat :=
  match items with
  | [] => ([], nid)
  | .obj kvs :: rest =>
      let ops1 := [StorageOp.insertRecord tableName nid
        (kvs.map (fun kv => (kv.1, pyStr kv.2)))]
      let ops2 : List StorageOp :=
        match parentId with
        | some pid =>
            [.insertRel ⟨nid, pid, tableName, parentTable,
              "array_item[" ++ toString i ++ "]"⟩]
        | none => []
      let r3 := processFields tableName kvs nid (nid + 1)
      let r4 := insertItems tableName rest parentId parentTable r3.2 (i + 1)
      (ops1 ++ ops2 ++ r3.1 ++ r4.1, r4.2)
  | _ :: rest => insertItems tableName rest parentId parentTable nid (i + 1)
termination_by 3 * Json.sizeArr items + 2
decreasing_by all_goals first | omega | (simp only [Json.size, Json.sizeArr, Json.sizeObj]; omega)

/-- The `for key, value in item.items()` loop shared by both branches of
`insert_data` (lines 83-86 and 108-111): every truthy nested dict or list is
handed to `process_nested_data` under the name `f"{table_name}_{key}"`. -/
def processFields (tableName : String) (kvs : List (String × Json))
    (recordId : Nat) (nid : Nat) : List StorageOp × Nat :=
  match kvs with
  | [] => ([], nid)
  | (key, value) :: rest =>
      let r1 :=
        if value.isTruthyContainer then
          process_nested_data (tableName ++ "_" ++ key) value recordId tableName nid
        else ([], nid)
      let r2 := processFields tableName rest recordId r1.2
      (r1.1 ++ r2.1, r2.2)
termination_by 3 * Json.sizeObj kvs + 2
decreasing_by all_goals first | omega | (simp only [Json.size, Json.sizeArr, Json.sizeObj]; omega)

/-- The Python function `process_nested_data(conn, table_name, data,
parent_id, parent_table)` (lines 113-148). -/
def process_nested_data (tableName : String) (data : Json) (parentId : Nat)
    (parentTable : String) (nid : Nat) : List StorageOp × Nat :=
  match data with
  | .arr items =>
      -- if isinstance(data, list) and data and all(isinstance(i, dict) ...):
      if !items.isEmpty && items.all Json.isObj then
        let schema := unionKeys items
        let ops0 := create_table tableName schema (some parentTable) true
          (some items.length)
          (some ("Array of " ++ toString items.length ++ " items from " ++ parentTable))
        let r1 := insert_data tableName (.arr items) (some parentId) (some parentTable) nid
        (ops0 ++ r1.1, r1.2)
      else ([], nid)
  | .obj kvs =>
      let ops0 := create_table tableName (kvs.map Prod.fst) (some parentTable) false
        none (some ("Object field from " ++ parentTable))
      let r1 := insert_data tableName (.obj kvs) (some parentId) (some parentTable) nid
      (ops0 ++ r1.1, r1.2)
  | _ => ([], nid)
termination_by 3 * Json.size data + 1
decreasing_by all_goals first | omega | (simp only [Json.size, Json.sizeArr, Json.sizeObj]; omega)

end

/-- Processing of one top-level `(key, value)` pair of the loop in
`index_json` (lines 218-289). -/
def indexKeyOps (key : String) (value : Json) (nid : Nat) : List StorageOp × Nat :=
  match value with
  | .arr items =>
      if items.all Json.isObj then
        -- isinstance(value, list) and all(isinstance(i, dict) for i in value)
        -- — for an empty list `all` is vacuously true, so [] takes this branch
        let schema := unionKeys items
        let ops0 := create_table key schema none true (some items.length)
          (some ("Top-level array containing " ++ toString items.length ++ " items"))
        let r1 := insert_data key (.arr items) none none nid
        (ops0 ++ r1.1, r1.2)
      else
        -- an array with a non-dict element falls through to the else branch
        let ops0 := create_table key ["value"] none false none
          (some "Top-level scalar value")
        let r1 := insert_data key (.obj [("value", value)]) none none nid
        (ops0 ++ r1.1, r1.2)
  | .obj kvs =>
      let ops0 := create_table key (kvs.map Prod.fst) none false none
        (some "Top-level object")
      let r1 := insert_data key (.obj kvs) none none nid
      (ops0 ++ r1.1, r1.2)
  | _ =>
      let ops0 := create_table key ["value"] none false none
        (some "Top-level scalar value")
      let r1 := insert_data key (.obj [("value", value)]) none none nid
      (ops0 ++ r1.1, r1.2)

/-- The `for key, value in json_data.items()` loop of `index_json`: the full
sequence of storage statements issued for a document. -/
def index_json_ops : List (String × Json) → Nat → List StorageOp × Nat
  | [], nid => ([], nid)
  | (key, value) :: rest, nid =>
      let r1 := indexKeyOps key value nid
      let r2 := index_json_ops rest r1.2
      (r1.1 ++ r2.1, r2.2)

/-- Identifier check for the string-built statements: DuckDB rejects a
zero-length delimited identifier, and an identifier containing the quote
character breaks the f-string-built statement text. -/
def badIdent (s : String) : Bool :=
  s.isEmpty || s.toList.contains (Char.ofNat 34)

/-- DuckDB semantics of one storage statement against a database state. -/
def applyOp (db : DB) : StorageOp → Except Err DB
  | .createTable name cols =>
      if badIdent name then .error (.badIdent name)
      else if cols.isEmpty then .error (.trailingComma name)
      else
        match cols.find? badIdent with
        | some c => .error (.badIdent c)
        | none =>
          if "record_id" ∈ cols ∨ ¬ cols.Nodup then .error (.dupColumn name)
          else if db.tables.any (fun t => t.name == name) then .ok db
          else .ok { db with tables := db.tables ++ [⟨name, cols⟩] }
  | .putSchema row =>
      if db.schema_info.any (fun r => r.table_name == row.table_name) then
        .ok { db with schema_info :=
          db.schema_info.map (fun r => if r.table_name == row.table_name then row else r) }
      else .ok { db with schema_info := db.schema_info ++ [row] }
  | .insertRecord table id vals =>
      if vals.isEmpty then .error (.trailingComma table)
      else
        match (vals.map Prod.fst).find? badIdent with
        | some c => .error (.badIdent c)
        | none =>
          if "record_id" ∈ vals.map Prod.fst ∨ ¬ (vals.map Prod.fst).Nodup then
            .error (.dupColumn table)
          else
            match db.tables.find? (fun t => t.name == table) with
            | none => .error (.noSuchTable table)
            | some t =>
              match (vals.map Prod.fst).find? (fun c => !t.columns.contains c) with
              | some c => .error (.noSuchColumn table c)
              | none =>
                if db.records.any (fun r => r.table == table && r.record_id == id) then
                  .error (.dupKey table id)
                else .ok { db with records := db.records ++ [⟨id, table, vals⟩] }
  | .insertRel row => .ok { db with rels := db.rels ++ [row] }

/-- Runs a statement list in order, stopping at the first failure (a Python
exception aborts the remainder of the run) and keeping the state reached so
far.  `f` injects storage-backend failures: when `f i` is true the backend
fails on the i-th statement of the run (modelling an external fault such as
an unavailable backend); `f = noFault` is the plain run. -/
def runOpsFrom (f : Nat → Bool) : Nat → DB → List StorageOp → DB × Option Err
  | _, db, [] => (db, none)
  | i, db, op :: rest =>
      if f i then (db, some (.injected i))
      else
        match applyOp db op with
        | .error e => (db, some e)
        | .ok db2 => runOpsFrom f (i + 1) db2 rest

def noFault : Nat → Bool := fun _ => false

/-- The Python function `index_json(db_name, json_data, ...)` run against a
fresh destination, under failure oracle `f`. -/
def index_json_f (f : Nat → Bool) (doc : List (String × Json)) : DB × Option Err :=
  runOpsFrom f 0 initDB (index_json_ops doc 0).1

/-- The Python function `index_json` on a fresh destination with a healthy
backend. -/
def index_json (doc : List (String × Json)) : DB × Option Err :=
  index_json_f noFault doc

/-- One row of the recursive `table_hierarchy` view (`create_metadata_views`,
lines 154-192): a level, a dotted path, and the underlying catalog row. -/
structure HRow where
  level : Nat
  path : String
  row : SchemaRow
deriving DecidableEq

/-- The recursive member of the CTE: children of one hierarchy row. -/
def childrenOf (cat : List SchemaRow) (h : HRow) : List HRow :=
  (cat.filter (fun s => s.parent_table == some h.row.table_name)).map
    (fun s => ⟨h.level + 1, h.path ++ "." ++ s.table_name, s⟩)

/-- Level-by-level evaluation of the recursive CTE: level 0 is the anchor
member (`WHERE parent_table IS NULL`), level k+1 joins `schema_info` against
level k. -/
def levelRows (cat : List SchemaRow) : Nat → List HRow
  | 0 => (cat.filter (fun s => s.parent_table == none)).map
      (fun s => ⟨0, s.table_name, s⟩)
  | k + 1 => (levelRows cat k).flatMap (childrenOf cat)

/-- The `table_hierarchy` view: union of all CTE iterations, `ORDER BY path`.
The iteration is cut at `cat.length` levels: every reachable row is reached
through a chain of parents that can be compressed to one with pairwise
distinct catalog rows (`chain_compress` and `chain_nodup_length` below), so
the cut loses no reachable rows and matches the terminating CTE
evaluation. -/
def table_hierarchy (cat : List SchemaRow) : List HRow :=
  ((List.range (cat.length + 1)).flatMap (levelRows cat)).mergeSort
    (fun a b => decide (a.path ≤ b.path))

/-- Reachability of a catalog row from the parentless roots, following
`parent_table` links by name. -/
inductive Reach (cat : List SchemaRow) : SchemaRow → Prop where
  | root (s : SchemaRow) : s ∈ cat → s.parent_table = none → Reach cat s
  | child (p s : SchemaRow) : Reach cat p → s ∈ cat →
      s.parent_table = some p.table_name → Reach cat s

/-- The chain of ancestors of a catalog row: `ChainUp cat s l` states that
`l = [s, parent of s, ..., a parentless root]` with all members in `cat` and
consecutive `parent_table` links. -/
inductive ChainUp (cat : List SchemaRow) : SchemaRow → List SchemaRow → Prop where
  | root (s : SchemaRow) : s ∈ cat → s.parent_table = none → ChainUp cat s [s]
  | step (p s : SchemaRow) (l : List SchemaRow) : ChainUp cat p l → s ∈ cat →
      s.parent_table = some p.table_name → ChainUp cat s (s :: l)

/-- Classifier for the final `else` branch of the top-level loop of
`index_json`: scalars, and arrays containing at least one non-object element.
An all-object array — including the empty array, since Python's `all` is
vacuously true on it — takes the array branch instead. -/
def scalarLike : Json → Bool
  | .arr xs => !xs.all Json.isObj
  | .obj _ => false
  | _ => true

/-- Record ids known to be inserted, paired with their table, in the state a
statement sequence starts from. -/
def ctxOf (db : DB) : List (Nat × String) :=
  db.records.map (fun r => (r.record_id, r.table))

/-- Relationship discipline of a statement sequence, relative to a context
`ctx` of records already inserted: every `insertRel` is immediately preceded
by the `insertRecord` of its child (same id, same table), and its parent id
was inserted earlier — either in `ctx` or by an earlier `insertRecord` of the
sequence (tracked by pushing each inserted record onto the context). -/
def RelOk : List (Nat × String) → List StorageOp → Prop
  | _, [] => True
  | ctx, .createTable _ _ :: rest => RelOk ctx rest
  | ctx, .putSchema _ :: rest => RelOk ctx rest
  | ctx, .insertRecord t id _ :: .insertRel r :: rest2 =>
      (r.child_id = id ∧ r.child_table = t ∧
        ∃ pt, r.parent_table = some pt ∧ (r.parent_id, pt) ∈ ctx) ∧
      RelOk ((id, t) :: ctx) rest2
  | ctx, .insertRecord t id _ :: rest => RelOk ((id, t) :: ctx) rest
  | _, .insertRel _ :: _ => False
termination_by _ ops => ops.length
decreasing_by all_goals (simp only [List.length_cons]; omega)

/-- Context extension performed by a statement sequence: each `insertRecord`
pushes its id/table pair. -/
def recCtx : List StorageOp → List (Nat × String) → List (Nat × String)
  | [], ctx => ctx
  | .insertRecord t id _ :: rest, ctx => recCtx rest ((id, t) :: ctx)
  | .createTable _ _ :: rest, ctx => recCtx rest ctx
  | .putSchema _ :: rest, ctx => recCtx rest ctx
  | .insertRel _ :: rest, ctx => recCtx rest ctx

/-- A statement sequence that does not begin with a bare relationship
append. -/
def headNotRel : List StorageOp → Prop
  | .insertRel _ :: _ => False
  | _ => True

/-- A relationship row of the ledger is linked when both the parent id and
the child id name records present in the database. -/
def Linked (db : DB) (r : RelRow) : Prop :=
  (∃ pt, r.parent_table = some pt ∧
    ∃ rec ∈ db.records, rec.record_id = r.parent_id ∧ rec.table = pt) ∧
  (∃ rec ∈ db.records, rec.record_id = r.child_id ∧ rec.table = r.child_table)

/-- Count/`is_array` discipline of every catalog row the engine writes: array
tables carry a count (the source array's length), object and scalar tables
carry no count — `create_table` is called with `count=None` on those paths. -/
def SchemaCond (row : SchemaRow) : Prop :=
  (row.is_array = true ∧ ∃ n, row.count = some n) ∨
  (row.is_array = false ∧ row.count = none)

/-- Does an insert statement provide a value for an empty-named column?  Such
a statement is rejected by the backend (zero-length identifier), so no
statement placed after it in the run is ever executed. -/
def hasEmptyKey (vals : List (String × String)) : Bool :=
  vals.any (fun kv => kv.1.isEmpty)

/-- Naming discipline of a statement sequence: every catalog row written with
a parent has a name of the form `parent ++ "_" ++ key`, and a row whose key
part is empty can only occur after an insert statement that names an
empty-named column (flag `seen`) — which the backend rejects, aborting the
run before the row is written. -/
def GuardOk : Bool → List StorageOp → Prop
  | _, [] => True
  | seen, .putSchema row :: rest =>
      (∀ p, row.parent_table = some p →
        ∃ k, row.table_name = p ++ "_" ++ k ∧ (k = "" → seen = true)) ∧
      GuardOk seen rest
  | seen, .insertRecord _ _ vals :: rest => GuardOk (seen || hasEmptyKey vals) rest
  | seen, .createTable _ _ :: rest => GuardOk seen rest
  | seen, .insertRel _ :: rest => GuardOk seen rest

/-- The `seen` flag after a statement sequence. -/
def seenAfter : Bool → List StorageOp → Bool
  | seen, [] => seen
  | seen, .insertRecord _ _ vals :: rest => seenAfter (seen || hasEmptyKey vals) rest
  | seen, .putSchema _ :: rest => seenAfter seen rest
  | seen, .createTable _ _ :: rest => seenAfter seen rest
  | seen, .insertRel _ :: rest => seenAfter seen rest

/-- Catalog rows whose parent link strictly extends the parent's name through
a non-empty key. -/
def GoodName (row : SchemaRow) : Prop :=
  ∀ p, row.parent_table = some p →
    ∃ k, k ≠ "" ∧ row.table_name = p ++ "_" ++ k

/-- The input document of the claim-C1 scenario. -/
def c1doc : List (String × Json) :=
  [("users", .arr [.obj [("name", .str "Alice"), ("age", .num 30)],
                   .obj [("name", .str "Bob"), ("city", .str "NY")]])]

/-- Two sibling elements whose nested objects under the shared key `c` have
different key sets: the claim-C2 scenario. -/
def c2doc : List (String × Json) :=
  [("p", .arr [.obj [("n", .num 1), ("c", .obj [("a", .num 1)])],
               .obj [("n", .num 2), ("c", .obj [("a", .num 2), ("b", .num 3)])]])]

/-- A document with an empty top-level array: the claim-C5 edge case. -/
def c5doc : List (String × Json) := [("x", .arr [])]

/-- A document with a top-level array of scalars. -/
def c5tags : List (String × Json) :=
  [("tags", .arr [.str "a", .str "b", .str "c"])]

/-- A document with one singleton top-level object: the claim-C6 edge case. -/
def c6doc : List (String × Json) := [("user", .obj [("name", .str "Alice")])]

/-- The specification's scenario-2 document: a top-level object with one
nested object field. -/
def scen2doc : List (String × Json) :=
  [("user", .obj [("name", .str "Alice"), ("address", .obj [("city", .str "NY")])])]

/-- A small concrete catalog used by witnesses: a root and one child. -/
def c7cat : List SchemaRow :=
  [⟨"a", none, none, false, none⟩,
   ⟨"a_b", some "a", none, false, none⟩]

/-! Evaluation of the engine on the concrete scenario documents.  These
lemmas are proved by unfolding the generator equations and letting the kernel
evaluate the interpreter. -/

theorem c1_eval : index_json c1doc =
    (⟨[⟨"users", ["name", "age", "city"]⟩],
      [⟨"users", none, some "Top-level array containing 2 items", true, some 2⟩],
      [⟨0, "users", [("name", "Alice"), ("age", "30")]⟩,
       ⟨1, "users", [("name", "Bob"), ("city", "NY")]⟩],
      []⟩, none) := by
  simp [index_json, index_json_f, index_json_ops, indexKeyOps, insert_data,
    insertItems, processFields, process_nested_data, create_table, unionKeys,
    setUpdate, setInsert, Json.keys, Json.isObj, Json.isTruthyContainer,
    pyStr, pyRepr, pyStrArr, pyStrObj, pyQuote, pyEscChar, runOpsFrom, applyOp,
    badIdent, noFault, initDB]
  decide

theorem c2_eval : index_json c2doc =
    (⟨[⟨"p", ["n", "c"]⟩, ⟨"p_c", ["a"]⟩],
      [⟨"p", none, some "Top-level array containing 2 items", true, some 2⟩,
       ⟨"p_c", some "p", some "Object field from p", false, none⟩],
      [⟨0, "p", [("n", "1"), ("c", "\x7b\x27a\x27: 1\x7d")]⟩,
       ⟨1, "p_c", [("a", "1")]⟩,
       ⟨2, "p", [("n", "2"), ("c", "\x7b\x27a\x27: 2, \x27b\x27: 3\x7d")]⟩],
      [⟨1, 0, "p_c", some "p", "object_field"⟩]⟩,
     some (.noSuchColumn "p_c" "b")) := by
  simp [index_json, index_json_f, index_json_ops, indexKeyOps, insert_data,
    insertItems, processFields, process_nested_data, create_table, unionKeys,
    setUpdate, setInsert, Json.keys, Json.isObj, Json.isTruthyContainer,
    pyStr, pyRepr, pyStrArr, pyStrObj, pyQuote, pyEscChar, runOpsFrom, applyOp,
    badIdent, noFault, initDB]
  decide

theorem c5_eval : index_json c5doc = (initDB, some (.trailingComma "x")) := by
  simp [index_json, index_json_f, index_json_ops, indexKeyOps, insert_data,
    insertItems, processFields, process_nested_data, create_table, unionKeys,
    setUpdate, setInsert, Json.keys, Json.isObj, Json.isTruthyContainer,
    pyStr, pyRepr, pyStrArr, pyStrObj, pyQuote, pyEscChar, runOpsFrom, applyOp,
    badIdent, noFault, initDB]
  decide

theorem c6_eval : index_json c6doc =
    (⟨[⟨"user", ["name"]⟩],
      [⟨"user", none, some "Top-level object", false, none⟩],
      [⟨0, "user", [("name", "Alice")]⟩],
      []⟩, none) := by
  simp [index_json, index_json_f, index_json_ops, indexKeyOps, insert_data,
    insertItems, processFields, process_nested_data, create_table, unionKeys,
    setUpdate, setInsert, Json.keys, Json.isObj, Json.isTruthyContainer,
    pyStr, pyRepr, pyStrArr, pyStrObj, pyQuote, pyEscChar, runOpsFrom, applyOp,
    badIdent, noFault, initDB]
  decide

/-- Claim C1: for the input document
`{"users": [{"name":"Alice","age":30},{"name":"Bob","city":"NY"}]}`, indexing
creates exactly one data table, named `users`, whose column set is the union
`{name, age, city}`; exactly two records are inserted into it; and the record
for Bob provides no value for the `age` column (the column exists on the
table, so Bob's row holds NULL there). -/
theorem C1_users_decomposition :
    (index_json c1doc).2 = none ∧
    (index_json c1doc).1.tables.map StorageTable.name = ["users"] ∧
    (∀ t ∈ (index_json c1doc).1.tables, t.columns.Perm ["name", "age", "city"]) ∧
    (index_json c1doc).1.records.map RecordRow.table = ["users", "users"] ∧
    (∃ rec ∈ (index_json c1doc).1.records,
      ("name", "Bob") ∈ rec.values ∧ "age" ∉ rec.values.map Prod.fst) ∧
    (∀ t ∈ (index_json c1doc).1.tables, "age" ∈ t.columns) := by
  rw [c1_eval]; decide

/-- Claim C2, counterexample: for `c2doc` both sibling elements carry a
nested object under the key `c` and both trigger decomposition, yet the key
`b` of the second sibling's nested object is not a column of the child table
`p_c` (its column list stays `["a"]`, fixed by the first sibling because
`CREATE TABLE IF NOT EXISTS` leaves an existing table unchanged), the second
sibling's child record is not inserted, and the run aborts with a
column-not-found storage error.  This refutes the claim that the child
table's column set is the union across all decomposing elements and that the
later sibling's record is inserted successfully. -/
theorem C2_counterexample :
    (index_json c2doc).1.tables.filter (fun t => t.name == "p_c") = [⟨"p_c", ["a"]⟩] ∧
    ¬ (∃ t ∈ (index_json c2doc).1.tables, t.name = "p_c" ∧ "b" ∈ t.columns) ∧
    ¬ (∃ rec ∈ (index_json c2doc).1.records,
        rec.table = "p_c" ∧ "b" ∈ rec.values.map Prod.fst) ∧
    (index_json c2doc).2 = some (Err.noSuchColumn "p_c" "b") := by
  rw [c2_eval]; decide

/-- Claim C2, amended: when sibling elements of the same parent table contain
nested objects under the same key and more than one triggers decomposition,
the child table's column set is fixed by the first element that triggered
decomposition; a later sibling whose nested object has keys unseen at
creation time does not get those columns added, its record insert fails with
a column-not-found storage error, and the run aborts.  Behaviour at the
representative input `c2doc`: the child table keeps the first sibling's
columns, only the first sibling's child row is stored, and the run ends in
the column-not-found error for the second sibling's new key. -/
theorem C2_first_decomposer_fixes_child_schema :
    (∃ t ∈ (index_json c2doc).1.tables, t.name = "p_c" ∧ t.columns = ["a"]) ∧
    ((index_json c2doc).1.records.filter (fun r => r.table == "p_c")).map
      RecordRow.values = [[("a", "1")]] ∧
    (index_json c2doc).2 = some (Err.noSuchColumn "p_c" "b") := by
  rw [c2_eval]; decide

/-- Claim C5, counterexample: for the input `{"x": []}` the engine does not
register a table `x` with single column `value` and does not insert any
record.  Python's `all` is vacuously true on the empty array, so the empty
array takes the array-of-objects branch, whose inferred schema is empty; the
generated `CREATE TABLE` statement then has a trailing comma and the run
aborts with a parse error before anything is stored. -/
theorem C5_counterexample :
    (index_json c5doc).1.tables = [] ∧
    (index_json c5doc).1.records = [] ∧
    (index_json c5doc).2 = some (Err.trailingComma "x") := by
  rw [c5_eval]; exact ⟨rfl, rfl, rfl⟩

/-- Claim C5, amended: for every top-level key whose value is a scalar or an
array containing a non-object element, processing that key registers a table
named by the key with the single column `value` and inserts exactly one
record whose `value` column holds the Python `str()` rendering of the whole
value; no per-element rows and no child table are created.  (An empty array
is excluded: it takes the array-of-objects branch and aborts the run, see the
counterexample.) -/
theorem C5_scalar_branch (key : String) (v : Json) (nid : Nat)
    (h : scalarLike v = true) :
    indexKeyOps key v nid =
      ([.createTable key ["value"],
        .putSchema ⟨key, none, some "Top-level scalar value", false, none⟩,
        .insertRecord key nid [("value", pyStr v)]], nid + 1) := by
  cases v with
  | arr xs =>
    cases xs with
    | nil => simp [scalarLike] at h
    | cons y ys =>
      simp only [scalarLike, Bool.not_eq_true'] at h
      simp [indexKeyOps, h, create_table, insert_data, processFields,
        process_nested_data, Json.isTruthyContainer]
  | obj kvs => simp [scalarLike] at h
  | null =>
    simp [indexKeyOps, create_table, insert_data, processFields,
      Json.isTruthyContainer]
  | bool b =>
    simp [indexKeyOps, create_table, insert_data, processFields,
      Json.isTruthyContainer]
  | num n =>
    simp [indexKeyOps, create_table, insert_data, processFields,
      Json.isTruthyContainer]
  | str s =>
    simp [indexKeyOps, create_table, insert_data, processFields,
      Json.isTruthyContainer]

/-- Witness for the amended claim C5 at the scenario input
`{"tags": ["a","b","c"]}`: one record whose `value` column holds
`str(["a","b","c"])`, which CPython renders `['a', 'b', 'c']`. -/
theorem C5_scalar_branch_witness :
    scalarLike (.arr [.str "a", .str "b", .str "c"]) = true ∧
    indexKeyOps "tags" (.arr [.str "a", .str "b", .str "c"]) 0 =
      ([.createTable "tags" ["value"],
        .putSchema ⟨"tags", none, some "Top-level scalar value", false, none⟩,
        .insertRecord "tags" 0
          [("value", "[\x27a\x27, \x27b\x27, \x27c\x27]")]], 1) := by
  refine ⟨by decide, ?_⟩
  have h := C5_scalar_branch "tags" (.arr [.str "a", .str "b", .str "c"]) 0 (by decide)
  rw [h]
  simp [pyStr, pyStrArr, pyRepr, pyQuote, pyEscChar]
  decide

/-- Claim C6, counterexample: for the input `{"user": {"name":"Alice"}}` the
catalog row of the table created from a singleton object has `count` NULL —
`index_json` calls `create_table` without a `count` argument on the object
branch — not `1` as the claim states. -/
theorem C6_counterexample :
    ∃ row ∈ (index_json c6doc).1.schema_info,
      row.is_array = false ∧ row.count = none ∧ ¬ row.count = some 1 := by
  rw [c6_eval]; decide

/-! Facts about single-statement execution. -/

theorem applyOp_createTable_ok {db db2 : DB} {n : String} {cs : List String}
    (h : applyOp db (.createTable n cs) = .ok db2) :
    db2.schema_info = db.schema_info ∧ db2.records = db.records ∧
    db2.rels = db.rels ∧
    (db2.tables = db.tables ∨ db2.tables = db.tables ++ [⟨n, cs⟩]) ∧
    (∃ t ∈ db2.tables, t.name = n) ∧
    badIdent n = false ∧ cs.isEmpty = false ∧ cs.find? badIdent = none ∧
    ¬ ("record_id" ∈ cs ∨ ¬ cs.Nodup) := by
  simp only [applyOp] at h
  split_ifs at h with h1 h2 h3 h4
  all_goals try (split at h)
  all_goals try exact Except.noConfusion h
  · rename_i x hf
    injection h with h
    subst h
    refine ⟨rfl, rfl, rfl, Or.inl rfl, ?_, by simpa using h1, by simpa using h2, hf, h3⟩
    rcases List.any_eq_true.mp h4 with ⟨t, ht, htn⟩
    exact ⟨t, ht, by simpa using htn⟩
  · rename_i x hf
    injection h with h
    subst h
    exact ⟨rfl, rfl, rfl, Or.inr rfl, ⟨⟨n, cs⟩, by simp, rfl⟩,
      by simpa using h1, by simpa using h2, hf, h3⟩

theorem applyOp_putSchema_ok (db : DB) (row : SchemaRow) :
    ∃ db2, applyOp db (.putSchema row) = .ok db2 ∧ db2.tables = db.tables ∧
      db2.records = db.records ∧ db2.rels = db.rels ∧
      (∀ r ∈ db2.schema_info, r ∈ db.schema_info ∨ r = row) := by
  simp only [applyOp]
  split_ifs with h1
  · refine ⟨_, rfl, rfl, rfl, rfl, ?_⟩
    intro r hr
    rcases List.mem_map.mp hr with ⟨r0, hr0, hrr⟩
    by_cases hm : (r0.table_name == row.table_name) = true
    · right; rw [if_pos hm] at hrr; exact hrr.symm
    · left; rw [if_neg hm] at hrr; rw [← hrr]; exact hr0
  · refine ⟨_, rfl, rfl, rfl, rfl, ?_⟩
    intro r hr
    rcases List.mem_append.mp hr with h | h
    · exact Or.inl h
    · right; simpa using h

theorem applyOp_insertRecord_ok {db db2 : DB} {t : String} {id : Nat}
    {vals : List (String × String)}
    (h : applyOp db (.insertRecord t id vals) = .ok db2) :
    db2.tables = db.tables ∧ db2.schema_info = db.schema_info ∧
    db2.rels = db.rels ∧ db2.records = db.records ++ [⟨id, t, vals⟩] ∧
    hasEmptyKey vals = false := by
  simp only [applyOp] at h
  split_ifs at h with h1 h2
  all_goals try (split at h)
  all_goals try exact Except.noConfusion h
  all_goals try (split at h)
  all_goals try exact Except.noConfusion h
  all_goals try (split at h)
  all_goals try exact Except.noConfusion h
  rename_i x1 hf x2 tb htb x3 hc
  injection h with h
  subst h
  refine ⟨rfl, rfl, rfl, rfl, ?_⟩
  rw [hasEmptyKey, List.any_eq_false]
  intro kv hkv
  have h9 := List.find?_eq_none.mp hf kv.1 (List.mem_map_of_mem Prod.fst hkv)
  simp only [badIdent, Bool.or_eq_true, not_or] at h9
  simpa using h9.1

theorem applyOp_insertRel (db : DB) (r : RelRow) :
    applyOp db (.insertRel r) = .ok { db with rels := db.rels ++ [r] } := rfl

theorem applyOp_ok_mono {db db2 : DB} {op : StorageOp} (h : applyOp db op = .ok db2) :
    (∀ r ∈ db.records, r ∈ db2.records) ∧
    (∀ row ∈ db2.schema_info, row ∈ db.schema_info ∨ op = .putSchema row) := by
  cases op with
  | createTable n cs =>
    obtain ⟨hs, hr, _, _⟩ := applyOp_createTable_ok h
    exact ⟨fun r hmem => hr ▸ hmem, fun row hmem => Or.inl (hs ▸ hmem)⟩
  | putSchema row0 =>
    obtain ⟨db2x, heq, _, hrec, _, horig⟩ := applyOp_putSchema_ok db row0
    rw [heq] at h
    injection h with h
    subst h
    refine ⟨fun r hmem => hrec ▸ hmem, fun row hmem => ?_⟩
    rcases horig row hmem with hm | hm
    · exact Or.inl hm
    · exact Or.inr (by rw [hm])
  | insertRecord t id vals =>
    obtain ⟨_, hs, _, hr, _⟩ := applyOp_insertRecord_ok h
    exact ⟨fun r hmem => hr ▸ List.mem_append_left _ hmem,
      fun row hmem => Or.inl (hs ▸ hmem)⟩
  | insertRel r0 =>
    rw [applyOp_insertRel] at h
    injection h with h
    subst h
    exact ⟨fun r hmem => hmem, fun row hmem => Or.inl hmem⟩

theorem runOpsFrom_records_mono (f : Nat → Bool) :
    ∀ (ops : List StorageOp) (i : Nat) (db : DB) (r : RecordRow),
      r ∈ db.records → r ∈ (runOpsFrom f i db ops).1.records := by
  intro ops
  induction ops with
  | nil => intro i db r hr; simpa [runOpsFrom] using hr
  | cons op rest ih =>
    intro i db r hr
    simp only [runOpsFrom]
    split_ifs with hfi
    · exact hr
    · rcases hA : applyOp db op with e | db2
      · exact hr
      · exact ih (i + 1) db2 r ((applyOp_ok_mono hA).1 r hr)

theorem runOpsFrom_schema_origin (f : Nat → Bool) :
    ∀ (ops : List StorageOp) (i : Nat) (db : DB) (row : SchemaRow),
      row ∈ (runOpsFrom f i db ops).1.schema_info →
      row ∈ db.schema_info ∨ StorageOp.putSchema row ∈ ops := by
  intro ops
  induction ops with
  | nil => intro i db row hr; exact Or.inl (by simpa [runOpsFrom] using hr)
  | cons op rest ih =>
    intro i db row hr
    simp only [runOpsFrom] at hr
    split_ifs at hr with hfi
    · exact Or.inl hr
    · rcases hA : applyOp db op with e | db2 <;> rw [hA] at hr
      · exact Or.inl hr
      · rcases ih (i + 1) db2 row hr with hm | hm
        · rcases (applyOp_ok_mono hA).2 row hm with hm2 | hm2
          · exact Or.inl hm2
          · exact Or.inr (by simp [hm2])
        · exact Or.inr (List.mem_cons_of_mem _ hm)

theorem runOpsFrom_none_no_fault (f : Nat → Bool) :
    ∀ (ops : List StorageOp) (i : Nat) (db : DB),
      (runOpsFrom f i db ops).2 = none →
      ∀ j, i ≤ j → j < i + ops.length → f j = false := by
  intro ops
  induction ops with
  | nil => intro i db _ j h1 h2; simp at h2; omega
  | cons op rest ih =>
    intro i db hnone j h1 h2
    simp only [runOpsFrom] at hnone
    split_ifs at hnone with hfi
    rcases hA : applyOp db op with e | db2 <;> rw [hA] at hnone
    · simp at hnone
    · by_cases hj : j = i
      · subst hj; simpa using hfi
      · exact ih (i + 1) db2 hnone j (by omega) (by simp at h2; omega)

/-- Claim C8: for every input document and every storage-backend failure
injected at any statement of the indexing run — table creation, catalog
upsert, record insert or ledger append — the indexing call ends in an error:
the failure is propagated to the caller and never swallowed into an
empty/default success result.  (`runOpsFrom` also stops at the failing
statement, so nothing after the failure executes.) -/
theorem C8_storage_failure_propagates (doc : List (String × Json)) (f : Nat → Bool)
    (h : ∃ i, i < (index_json_ops doc 0).1.length ∧ f i = true) :
    (index_json_f f doc).2.isSome = true := by
  obtain ⟨i, hlt, hf⟩ := h
  rcases he : (index_json_f f doc).2 with _ | e
  · exfalso
    simp only [index_json_f] at he
    have hff := runOpsFrom_none_no_fault f (index_json_ops doc 0).1 0 initDB he i
      (by omega) (by omega)
    rw [hf] at hff
    exact Bool.noConfusion hff
  · rfl

/-- Witness for claim C8: injecting a backend failure at the very first
statement of the run over `c6doc` makes `index_json` report an error. -/
theorem C8_storage_failure_propagates_witness :
    (∃ i, i < (index_json_ops c6doc 0).1.length ∧ (fun j => decide (j = 0)) i = true) ∧
    (index_json_f (fun j => decide (j = 0)) c6doc).2.isSome = true := by
  have hyp : ∃ i, i < (index_json_ops c6doc 0).1.length ∧
      (fun j => decide (j = 0)) i = true := by
    refine ⟨0, ?_, by decide⟩
    simp [index_json_ops, indexKeyOps, create_table, insert_data, processFields,
      Json.isTruthyContainer, c6doc]
  exact ⟨hyp, C8_storage_failure_propagates c6doc _ hyp⟩

theorem map_replace_of_no_match (l : List SchemaRow) (row : SchemaRow)
    (hno : ∀ r ∈ l, ¬ r.table_name = row.table_name) :
    l.map (fun r => if r.table_name == row.table_name then row else r) = l := by
  induction l with
  | nil => rfl
  | cons a rest ih =>
    have ha : (a.table_name == row.table_name) = false := by
      simpa using hno a (List.mem_cons_self a rest)
    simp only [List.map_cons, ha, Bool.false_eq_true, if_false]
    rw [ih (fun r hr => hno r (List.mem_cons_of_mem a hr))]

theorem filter_name_nil (l : List SchemaRow) (row : SchemaRow)
    (hno : ∀ r ∈ l, ¬ r.table_name = row.table_name) :
    l.filter (fun r => r.table_name == row.table_name) = [] := by
  rw [List.filter_eq_nil_iff]
  intro r hr
  simpa using hno r hr

theorem filter_map_replace (l : List SchemaRow) (row : SchemaRow)
    (hnd : (l.map SchemaRow.table_name).Nodup)
    (hmem : ∃ r ∈ l, r.table_name = row.table_name) :
    ((l.map (fun r => if r.table_name == row.table_name then row else r)).filter
      (fun r => r.table_name == row.table_name)) = [row] := by
  induction l with
  | nil => simp at hmem
  | cons a rest ih =>
    simp only [List.map_cons, List.nodup_cons] at hnd
    by_cases ha : a.table_name = row.table_name
    · have hb : (a.table_name == row.table_name) = true := by simpa using ha
      have hrest : ∀ r ∈ rest, ¬ r.table_name = row.table_name := by
        intro r hr hcontra
        apply hnd.1
        have har : a.table_name = r.table_name := by rw [ha, ← hcontra]
        rw [har]
        exact List.mem_map_of_mem _ hr
      rw [List.map_cons, if_pos hb, map_replace_of_no_match rest row hrest]
      simp only [List.filter_cons]
      rw [if_pos (by simp), filter_name_nil rest row hrest]
    · have hb : (a.table_name == row.table_name) = false := by simpa using ha
      have hmem2 : ∃ r ∈ rest, r.table_name = row.table_name := by
        rcases hmem with ⟨r, hr, hrn⟩
        rcases List.mem_cons.mp hr with h | h
        · exact absurd (h ▸ hrn) ha
        · exact ⟨r, h, hrn⟩
      rw [List.map_cons, if_neg (by simp [ha])]
      simp only [List.filter_cons, hb, Bool.false_eq_true, if_false]
      exact ih hnd.2 hmem2

theorem applyOp_putSchema_filter (db : DB) (row : SchemaRow)
    (hnd : (db.schema_info.map SchemaRow.table_name).Nodup) :
    ∃ db2, applyOp db (.putSchema row) = .ok db2 ∧ db2.tables = db.tables ∧
      db2.records = db.records ∧ db2.rels = db.rels ∧
      db2.schema_info.filter (fun r => r.table_name == row.table_name) = [row] ∧
      (db2.schema_info.map SchemaRow.table_name).Nodup := by
  simp only [applyOp]
  split_ifs with h1
  · refine ⟨_, rfl, rfl, rfl, rfl, ?_, ?_⟩
    · apply filter_map_replace db.schema_info row hnd
      rcases List.any_eq_true.mp h1 with ⟨r, hr, hrb⟩
      exact ⟨r, hr, by simpa using hrb⟩
    · have : (db.schema_info.map
          (fun r => if r.table_name == row.table_name then row else r)).map
            SchemaRow.table_name = db.schema_info.map SchemaRow.table_name := by
        rw [List.map_map]
        apply List.map_congr_left
        intro r hr
        by_cases hm : (r.table_name == row.table_name) = true
        · simp only [Function.comp_apply, hm, if_true]
          exact (eq_of_beq hm).symm
        · have hm2 : ¬ r.table_name = row.table_name := fun hcon => hm (by simpa using hcon)
          simp [hm2]
      rw [this]
      exact hnd
  · refine ⟨_, rfl, rfl, rfl, rfl, ?_, ?_⟩
    · have hno : ∀ r ∈ db.schema_info, ¬ r.table_name = row.table_name := by
        intro r hr hcontra
        have h1f : (db.schema_info.any fun r => r.table_name == row.table_name) = false := by
          simpa using h1
        exact (List.any_eq_false.mp h1f r hr) (by simpa using hcontra)
      rw [List.filter_append, filter_name_nil db.schema_info row hno]
      simp
    · rw [List.map_append, List.nodup_append]
      refine ⟨hnd, by simp, ?_⟩
      intro x hx
      simp only [List.map_cons, List.map_nil, List.mem_singleton]
      intro hxr
      rcases List.mem_map.mp hx with ⟨r, hr, hrn⟩
      have h1f : (db.schema_info.any fun r => r.table_name == row.table_name) = false := by
        simpa using h1
      exact (List.any_eq_false.mp h1f r hr) (by simp [hrn, hxr])

/-- Claim C9: calling `create_table` (the engine's `registerTable`) twice
with the same table name and the same column set leaves the catalog with
exactly one row for that name — the second call overwrites the catalog
metadata — does not create a duplicate table row, and does not alter the
already-created storage table.  Hypotheses: the `table_name` primary key of
`schema_info` (pairwise distinct names) and the success of the first
registration. -/
theorem C9_idempotent_reregistration (db : DB) (name : String)
    (schema : List String) (p1 p2 : Option String) (a1 a2 : Bool)
    (cn1 cn2 : Option Nat) (d1 d2 : Option String)
    (hnd : (db.schema_info.map SchemaRow.table_name).Nodup)
    (h1 : (runOpsFrom noFault 0 db (create_table name schema p1 a1 cn1 d1)).2 = none) :
    ((runOpsFrom noFault 0
        (runOpsFrom noFault 0 db (create_table name schema p1 a1 cn1 d1)).1
        (create_table name schema p2 a2 cn2 d2)).2 = none) ∧
    ((runOpsFrom noFault 0
        (runOpsFrom noFault 0 db (create_table name schema p1 a1 cn1 d1)).1
        (create_table name schema p2 a2 cn2 d2)).1.schema_info.filter
        (fun r => r.table_name == name) = [⟨name, p2, d2, a2, cn2⟩]) ∧
    ((runOpsFrom noFault 0
        (runOpsFrom noFault 0 db (create_table name schema p1 a1 cn1 d1)).1
        (create_table name schema p2 a2 cn2 d2)).1.tables =
      (runOpsFrom noFault 0 db (create_table name schema p1 a1 cn1 d1)).1.tables) := by
  rcases hA : applyOp db (.createTable name schema) with e | dbA
  · exfalso
    simp [create_table, runOpsFrom, noFault, hA] at h1
  · obtain ⟨hsch, hrec, hrels, htab, hex, hbad, hne, hfind, hdup⟩ :=
      applyOp_createTable_ok hA
    have hndA : (dbA.schema_info.map SchemaRow.table_name).Nodup := by
      rw [hsch]; exact hnd
    obtain ⟨dbB, hB, hBt, hBr, hBl, hBfil, hBnd⟩ :=
      applyOp_putSchema_filter dbA ⟨name, p1, d1, a1, cn1⟩ hndA
    have hrun1 : runOpsFrom noFault 0 db (create_table name schema p1 a1 cn1 d1)
        = (dbB, none) := by
      simp [create_table, runOpsFrom, noFault, hA, hB]
    have hBex : (dbB.tables.any (fun t => t.name == name)) = true := by
      rw [hBt]
      rcases hex with ⟨t, ht, htn⟩
      exact List.any_eq_true.mpr ⟨t, ht, by simpa using htn⟩
    have hA2 : applyOp dbB (.createTable name schema) = .ok dbB := by
      simp only [applyOp, hbad, Bool.false_eq_true, if_false, hne, hfind,
        hdup, hBex, if_true]
    obtain ⟨dbC, hC, hCt, hCr, hCl, hCfil, hCnd⟩ :=
      applyOp_putSchema_filter dbB ⟨name, p2, d2, a2, cn2⟩ hBnd
    have hrun2 : runOpsFrom noFault 0 dbB (create_table name schema p2 a2 cn2 d2)
        = (dbC, none) := by
      simp [create_table, runOpsFrom, noFault, hA2, hC]
    rw [hrun1]
    simp only [hrun2]
    exact ⟨trivial, hCfil, hCt⟩

/-- Witness for claim C9: registering table `t` twice on a fresh database,
with different metadata the second time, keeps exactly one catalog row for
`t` (carrying the second call's metadata) and leaves the storage table
unchanged. -/
theorem C9_idempotent_reregistration_witness :
    ((initDB.schema_info.map SchemaRow.table_name).Nodup ∧
      (runOpsFrom noFault 0 initDB (create_table "t" ["a"] none false none none)).2 = none) ∧
    ((runOpsFrom noFault 0
        (runOpsFrom noFault 0 initDB (create_table "t" ["a"] none false none none)).1
        (create_table "t" ["a"] (some "x") true (some 2) (some "d"))).2 = none) ∧
    ((runOpsFrom noFault 0
        (runOpsFrom noFault 0 initDB (create_table "t" ["a"] none false none none)).1
        (create_table "t" ["a"] (some "x") true (some 2) (some "d"))).1.schema_info.filter
        (fun r => r.table_name == "t") = [⟨"t", some "x", some "d", true, some 2⟩]) ∧
    ((runOpsFrom noFault 0
        (runOpsFrom noFault 0 initDB (create_table "t" ["a"] none false none none)).1
        (create_table "t" ["a"] (some "x") true (some 2) (some "d"))).1.tables =
      (runOpsFrom noFault 0 initDB (create_table "t" ["a"] none false none none)).1.tables) :=
  ⟨⟨by decide, by decide⟩,
    C9_idempotent_reregistration initDB "t" ["a"] none (some "x") false true
      none (some 2) none (some "d") (by decide) (by decide)⟩

theorem RelOk_mono (ops : List StorageOp) (ctx1 ctx2 : List (Nat × String))
    (hsub : ∀ x ∈ ctx1, x ∈ ctx2) (h : RelOk ctx1 ops) : RelOk ctx2 ops := by
  match ops with
  | [] => simp only [RelOk]
  | .createTable _ _ :: rest =>
    simp only [RelOk] at h ⊢
    exact RelOk_mono rest ctx1 ctx2 hsub h
  | .putSchema _ :: rest =>
    simp only [RelOk] at h ⊢
    exact RelOk_mono rest ctx1 ctx2 hsub h
  | .insertRecord t id vals :: .insertRel r :: rest2 =>
    simp only [RelOk] at h ⊢
    obtain ⟨⟨h1, h2, pt, h3, h4⟩, h5⟩ := h
    refine ⟨⟨h1, h2, pt, h3, hsub _ h4⟩, RelOk_mono rest2 _ _ ?_ h5⟩
    intro x hx
    rcases List.mem_cons.mp hx with hx | hx
    · exact hx ▸ List.mem_cons_self _ _
    · exact List.mem_cons_of_mem _ (hsub x hx)
  | .insertRecord t id vals :: [] => simp [RelOk]
  | .insertRecord t id vals :: .createTable n cs :: rest2 =>
    simp only [RelOk] at h ⊢
    refine RelOk_mono _ _ _ ?_ h
    intro x hx
    rcases List.mem_cons.mp hx with hx | hx
    · exact hx ▸ List.mem_cons_self _ _
    · exact List.mem_cons_of_mem _ (hsub x hx)
  | .insertRecord t id vals :: .putSchema row :: rest2 =>
    simp only [RelOk] at h ⊢
    refine RelOk_mono _ _ _ ?_ h
    intro x hx
    rcases List.mem_cons.mp hx with hx | hx
    · exact hx ▸ List.mem_cons_self _ _
    · exact List.mem_cons_of_mem _ (hsub x hx)
  | .insertRecord t id vals :: .insertRecord t2 id2 v2 :: rest2 =>
    simp only [RelOk] at h ⊢
    refine RelOk_mono _ _ _ ?_ h
    intro x hx
    rcases List.mem_cons.mp hx with hx | hx
    · exact hx ▸ List.mem_cons_self _ _
    · exact List.mem_cons_of_mem _ (hsub x hx)
  | .insertRel r :: rest =>
    exact absurd h (by simp [RelOk])
termination_by ops.length
decreasing_by all_goals (simp only [List.length_cons]; omega)

theorem recCtx_extends (ops : List StorageOp) (ctx : List (Nat × String)) :
    ∀ x ∈ ctx, x ∈ recCtx ops ctx := by
  induction ops generalizing ctx with
  | nil => intro x hx; simpa [recCtx] using hx
  | cons op rest ih =>
    intro x hx
    cases op with
    | insertRecord t id vals =>
      simp only [recCtx]
      exact ih _ x (List.mem_cons_of_mem _ hx)
    | createTable n cs => simp only [recCtx]; exact ih _ x hx
    | putSchema row => simp only [recCtx]; exact ih _ x hx
    | insertRel r => simp only [recCtx]; exact ih _ x hx

theorem headNotRel_append (xs ys : List StorageOp)
    (hx : headNotRel xs) (hy : headNotRel ys) : headNotRel (xs ++ ys) := by
  cases xs with
  | nil => simpa using hy
  | cons op rest =>
    cases op with
    | insertRel r => exact absurd hx (by simp [headNotRel])
    | createTable n cs => simp [headNotRel]
    | putSchema row => simp [headNotRel]
    | insertRecord t id vals => simp [headNotRel]

theorem RelOk_cons_record (ctx : List (Nat × String)) (t : String) (id : Nat)
    (vals : List (String × String)) (f : List StorageOp)
    (h1 : RelOk ((id, t) :: ctx) f) (h2 : headNotRel f) :
    RelOk ctx (.insertRecord t id vals :: f) := by
  cases f with
  | nil => simp [RelOk]
  | cons op f2 =>
    cases op with
    | insertRel r => exact absurd h2 (by simp [headNotRel])
    | createTable n cs => simpa only [RelOk] using h1
    | putSchema row => simpa only [RelOk] using h1
    | insertRecord t2 id2 v2 => simpa only [RelOk] using h1

theorem RelOk_cons_record_rel (ctx : List (Nat × String)) (t : String) (id : Nat)
    (vals : List (String × String)) (r : RelRow) (f : List StorageOp)
    (hc1 : r.child_id = id) (hc2 : r.child_table = t)
    (hp : ∃ pt, r.parent_table = some pt ∧ (r.parent_id, pt) ∈ ctx)
    (h1 : RelOk ((id, t) :: ctx) f) :
    RelOk ctx (.insertRecord t id vals :: .insertRel r :: f) := by
  simp only [RelOk]
  exact ⟨⟨hc1, hc2, hp⟩, h1⟩

theorem RelOk_append (ctx : List (Nat × String)) (xs ys : List StorageOp)
    (hx : RelOk ctx xs) (hy : RelOk (recCtx xs ctx) ys) (hh : headNotRel ys) :
    RelOk ctx (xs ++ ys) := by
  match xs with
  | [] => simpa [recCtx] using hy
  | .createTable _ _ :: rest =>
    simp only [RelOk, recCtx, List.cons_append] at hx hy ⊢
    exact RelOk_append ctx rest ys hx hy hh
  | .putSchema _ :: rest =>
    simp only [RelOk, recCtx, List.cons_append] at hx hy ⊢
    exact RelOk_append ctx rest ys hx hy hh
  | .insertRecord t id vals :: .insertRel r :: rest2 =>
    simp only [RelOk, recCtx, List.cons_append] at hx hy ⊢
    exact ⟨hx.1, RelOk_append _ rest2 ys hx.2 hy hh⟩
  | .insertRecord t id vals :: [] =>
    simp only [RelOk, recCtx, List.cons_append, List.nil_append] at hx hy ⊢
    exact RelOk_cons_record _ _ _ _ _ (by simpa [recCtx] using hy) hh
  | .insertRecord t id vals :: .createTable n cs :: rest2 =>
    simp only [RelOk, recCtx, List.cons_append] at hx hy ⊢
    exact RelOk_append _ rest2 ys hx hy hh
  | .insertRecord t id vals :: .putSchema row :: rest2 =>
    simp only [RelOk, recCtx, List.cons_append] at hx hy ⊢
    exact RelOk_append _ rest2 ys hx hy hh
  | .insertRecord t id vals :: .insertRecord t2 id2 v2 :: rest2 =>
    simp only [RelOk, recCtx, List.cons_append] at hx hy ⊢
    exact RelOk_append _ (.insertRecord t2 id2 v2 :: rest2) ys hx hy hh
  | .insertRel r :: rest =>
    exact absurd hx (by simp [RelOk])
termination_by xs.length
decreasing_by all_goals (simp only [List.length_cons]; omega)

mutual

theorem rel_insert_data (tableName : String) (data : Json) (parentId : Option Nat)
    (parentTable : Option String) (nid : Nat) (ctx : List (Nat × String))
    (hp : ∀ pid, parentId = some pid →
      ∃ pt, parentTable = some pt ∧ (pid, pt) ∈ ctx) :
    RelOk ctx (insert_data tableName data parentId parentTable nid).1 ∧
    headNotRel (insert_data tableName data parentId parentTable nid).1 := by
  cases data with
  | arr items =>
    simp only [insert_data]
    exact rel_insertItems tableName items parentId parentTable nid 0 ctx hp
  | obj kvs =>
    cases parentId with
    | none =>
      simp only [insert_data, List.cons_append, List.nil_append]
      have hf := rel_processFields tableName kvs nid (nid + 1)
        ((nid, tableName) :: ctx) (List.mem_cons_self _ _)
      exact ⟨RelOk_cons_record _ _ _ _ _ hf.1 hf.2, by simp [headNotRel]⟩
    | some pid =>
      obtain ⟨pt, hpt, hmem⟩ := hp pid rfl
      subst hpt
      simp only [insert_data, List.cons_append, List.nil_append]
      have hf := rel_processFields tableName kvs nid (nid + 1)
        ((nid, tableName) :: ctx) (List.mem_cons_self _ _)
      refine ⟨RelOk_cons_record_rel _ _ _ _ _ _ rfl rfl
        ⟨pt, rfl, hmem⟩ hf.1, by simp [headNotRel]⟩
  | null => simp [insert_data, RelOk, headNotRel]
  | bool b => simp [insert_data, RelOk, headNotRel]
  | num n => simp [insert_data, RelOk, headNotRel]
  | str s => simp [insert_data, RelOk, headNotRel]
termination_by 3 * Json.size data
decreasing_by all_goals first | omega | (simp only [Json.size, Json.sizeArr, Json.sizeObj]; omega)

theorem rel_insertItems (tableName : String) (items : List Json) (parentId : Option Nat)
    (parentTable : Option String) (nid : Nat) (i : Nat) (ctx : List (Nat × String))
    (hp : ∀ pid, parentId = some pid →
      ∃ pt, parentTable = some pt ∧ (pid, pt) ∈ ctx) :
    RelOk ctx (insertItems tableName items parentId parentTable nid i).1 ∧
    headNotRel (insertItems tableName items parentId parentTable nid i).1 := by
  match items with
  | [] => simp [insertItems, RelOk, headNotRel]
  | .obj kvs :: rest =>
    cases parentId with
    | none =>
      simp only [insertItems, List.cons_append, List.nil_append]
      have hf := rel_processFields tableName kvs nid (nid + 1)
        ((nid, tableName) :: ctx) (List.mem_cons_self _ _)
      have hr := rel_insertItems tableName rest none parentTable
        (processFields tableName kvs nid (nid + 1)).2 (i + 1)
        (recCtx (processFields tableName kvs nid (nid + 1)).1 ((nid, tableName) :: ctx))
        (by intro pid hpid; cases hpid)
      refine ⟨RelOk_cons_record _ _ _ _ _
        (RelOk_append _ _ _ hf.1 hr.1 hr.2)
        (headNotRel_append _ _ hf.2 hr.2), by simp [headNotRel]⟩
    | some pid =>
      obtain ⟨pt, hpt, hmem⟩ := hp pid rfl
      subst hpt
      simp only [insertItems, List.cons_append, List.nil_append]
      have hf := rel_processFields tableName kvs nid (nid + 1)
        ((nid, tableName) :: ctx) (List.mem_cons_self _ _)
      have hr := rel_insertItems tableName rest (some pid) (some pt)
        (processFields tableName kvs nid (nid + 1)).2 (i + 1)
        (recCtx (processFields tableName kvs nid (nid + 1)).1 ((nid, tableName) :: ctx))
        (by
          intro pid2 hpid2
          injection hpid2 with hpid2
          subst hpid2
          exact ⟨pt, rfl, recCtx_extends _ _ _ (List.mem_cons_of_mem _ hmem)⟩)
      refine ⟨RelOk_cons_record_rel _ _ _ _ _ _ rfl rfl
        ⟨pt, rfl, hmem⟩
        (RelOk_append _ _ _ hf.1 hr.1 hr.2), by simp [headNotRel]⟩
  | .null :: rest =>
    simp only [insertItems]
    exact rel_insertItems tableName rest parentId parentTable nid (i + 1) ctx hp
  | .bool b :: rest =>
    simp only [insertItems]
    exact rel_insertItems tableName rest parentId parentTable nid (i + 1) ctx hp
  | .num n :: rest =>
    simp only [insertItems]
    exact rel_insertItems tableName rest parentId parentTable nid (i + 1) ctx hp
  | .str s :: rest =>
    simp only [insertItems]
    exact rel_insertItems tableName rest parentId parentTable nid (i + 1) ctx hp
  | .arr xs :: rest =>
    simp only [insertItems]
    exact rel_insertItems tableName rest parentId parentTable nid (i + 1) ctx hp
termination_by 3 * Json.sizeArr items + 2
decreasing_by all_goals first | omega | (simp only [Json.size, Json.sizeArr, Json.sizeObj]; omega)

theorem rel_processFields (tableName : String) (kvs : List (String × Json))
    (recordId : Nat) (nid : Nat) (ctx : List (Nat × String))
    (hm : (recordId, tableName) ∈ ctx) :
    RelOk ctx (processFields tableName kvs recordId nid).1 ∧
    headNotRel (processFields tableName kvs recordId nid).1 := by
  match kvs with
  | [] => simp [processFields, RelOk, headNotRel]
  | (key, value) :: rest =>
    rcases htv : value.isTruthyContainer with _ | _
    · simp only [processFields, htv, Bool.false_eq_true, if_false, List.nil_append]
      exact rel_processFields tableName rest recordId nid ctx hm
    · simp only [processFields, htv, if_true]
      have h1 := rel_process_nested (tableName ++ "_" ++ key) value recordId
        tableName nid ctx hm
      have h2 := rel_processFields tableName rest recordId
        (process_nested_data (tableName ++ "_" ++ key) value recordId tableName nid).2
        (recCtx (process_nested_data (tableName ++ "_" ++ key) value recordId tableName nid).1 ctx)
        (recCtx_extends _ _ _ hm)
      exact ⟨RelOk_append _ _ _ h1.1 h2.1 h2.2, headNotRel_append _ _ h1.2 h2.2⟩
termination_by 3 * Json.sizeObj kvs + 2
decreasing_by all_goals first | omega | (simp only [Json.size, Json.sizeArr, Json.sizeObj]; omega)

theorem rel_process_nested (tableName : String) (data : Json) (parentId : Nat)
    (parentTable : String) (nid : Nat) (ctx : List (Nat × String))
    (hm : (parentId, parentTable) ∈ ctx) :
    RelOk ctx (process_nested_data tableName data parentId parentTable nid).1 ∧
    headNotRel (process_nested_data tableName data parentId parentTable nid).1 := by
  cases data with
  | arr items =>
    rcases hcnd : (!items.isEmpty && items.all Json.isObj) with _ | _
    · simp [process_nested_data, hcnd, RelOk, headNotRel]
    · simp only [process_nested_data, hcnd, if_true, create_table,
        List.cons_append, List.nil_append]
      have h1 := rel_insert_data tableName (.arr items) (some parentId)
        (some parentTable) nid ctx
        (by
          intro pid hpid
          injection hpid with hpid
          subst hpid
          exact ⟨parentTable, rfl, hm⟩)
      exact ⟨by simp only [RelOk]; exact h1.1, by simp [headNotRel]⟩
  | obj kvs =>
    simp only [process_nested_data, create_table, List.cons_append, List.nil_append]
    have h1 := rel_insert_data tableName (.obj kvs) (some parentId)
      (some parentTable) nid ctx
      (by
        intro pid hpid
        injection hpid with hpid
        subst hpid
        exact ⟨parentTable, rfl, hm⟩)
    exact ⟨by simp only [RelOk]; exact h1.1, by simp [headNotRel]⟩
  | null => simp [process_nested_data, RelOk, headNotRel]
  | bool b => simp [process_nested_data, RelOk, headNotRel]
  | num n => simp [process_nested_data, RelOk, headNotRel]
  | str s => simp [process_nested_data, RelOk, headNotRel]
termination_by 3 * Json.size data + 1
decreasing_by all_goals first | omega | (simp only [Json.size, Json.sizeArr, Json.sizeObj]; omega)

end

theorem rel_indexKey (key : String) (value : Json) (nid : Nat)
    (ctx : List (Nat × String)) :
    RelOk ctx (indexKeyOps key value nid).1 ∧
    headNotRel (indexKeyOps key value nid).1 := by
  have hpnone : ∀ pid, (none : Option Nat) = some pid →
      ∃ pt, (none : Option String) = some pt ∧ (pid, pt) ∈ ctx := by
    intro pid hpid; cases hpid
  cases value with
  | arr items =>
    rcases hcnd : items.all Json.isObj with _ | _
    · simp only [indexKeyOps, hcnd, Bool.false_eq_true, if_false, create_table,
        List.cons_append, List.nil_append]
      have h1 := rel_insert_data key (.obj [("value", .arr items)]) none none nid ctx hpnone
      exact ⟨by simp only [RelOk]; exact h1.1, by simp [headNotRel]⟩
    · simp only [indexKeyOps, hcnd, if_true, create_table,
        List.cons_append, List.nil_append]
      have h1 := rel_insert_data key (.arr items) none none nid ctx hpnone
      exact ⟨by simp only [RelOk]; exact h1.1, by simp [headNotRel]⟩
  | obj kvs =>
    simp only [indexKeyOps, create_table, List.cons_append, List.nil_append]
    have h1 := rel_insert_data key (.obj kvs) none none nid ctx hpnone
    exact ⟨by simp only [RelOk]; exact h1.1, by simp [headNotRel]⟩
  | null =>
    simp only [indexKeyOps, create_table, List.cons_append, List.nil_append]
    have h1 := rel_insert_data key (.obj [("value", .null)]) none none nid ctx hpnone
    exact ⟨by simp only [RelOk]; exact h1.1, by simp [headNotRel]⟩
  | bool b =>
    simp only [indexKeyOps, create_table, List.cons_append, List.nil_append]
    have h1 := rel_insert_data key (.obj [("value", .bool b)]) none none nid ctx hpnone
    exact ⟨by simp only [RelOk]; exact h1.1, by simp [headNotRel]⟩
  | num n =>
    simp only [indexKeyOps, create_table, List.cons_append, List.nil_append]
    have h1 := rel_insert_data key (.obj [("value", .num n)]) none none nid ctx hpnone
    exact ⟨by simp only [RelOk]; exact h1.1, by simp [headNotRel]⟩
  | str s =>
    simp only [indexKeyOps, create_table, List.cons_append, List.nil_append]
    have h1 := rel_insert_data key (.obj [("value", .str s)]) none none nid ctx hpnone
    exact ⟨by simp only [RelOk]; exact h1.1, by simp [headNotRel]⟩

theorem rel_index_json_ops (doc : List (String × Json)) :
    ∀ (nid : Nat) (ctx : List (Nat × String)),
      RelOk ctx (index_json_ops doc nid).1 ∧
      headNotRel (index_json_ops doc nid).1 := by
  induction doc with
  | nil => intro nid ctx; simp [index_json_ops, RelOk, headNotRel]
  | cons kv rest ih =>
    intro nid ctx
    simp only [index_json_ops]
    have h1 := rel_indexKey kv.1 kv.2 nid ctx
    have h2 := ih (indexKeyOps kv.1 kv.2 nid).2
      (recCtx (indexKeyOps kv.1 kv.2 nid).1 ctx)
    exact ⟨RelOk_append _ _ _ h1.1 h2.1 h2.2, headNotRel_append _ _ h1.2 h2.2⟩

theorem mem_ctxOf {db : DB} {p : Nat} {pt : String} :
    (p, pt) ∈ ctxOf db ↔ ∃ rec ∈ db.records, rec.record_id = p ∧ rec.table = pt := by
  simp only [ctxOf, List.mem_map, Prod.mk.injEq]

theorem Linked_of_records_superset {db db2 : DB} {r : RelRow}
    (hsub : ∀ rec ∈ db.records, rec ∈ db2.records) (h : Linked db r) :
    Linked db2 r := by
  obtain ⟨⟨pt, hpt, rec1, hrec1, h11, h12⟩, rec2, hrec2, h21, h22⟩ := h
  exact ⟨⟨pt, hpt, rec1, hsub rec1 hrec1, h11, h12⟩, rec2, hsub rec2 hrec2, h21, h22⟩

theorem runOpsFrom_cons (f : Nat → Bool) (i : Nat) (db : DB) (op : StorageOp)
    (rest : List StorageOp) :
    runOpsFrom f i db (op :: rest) =
      if f i then (db, some (.injected i))
      else
        match applyOp db op with
        | .error e => (db, some e)
        | .ok db2 => runOpsFrom f (i + 1) db2 rest := rfl

theorem runLinked (ops : List StorageOp) (f : Nat → Bool) (i : Nat) (db : DB)
    (hok : RelOk (ctxOf db) ops) (hrels : ∀ r ∈ db.rels, Linked db r) :
    ∀ r ∈ (runOpsFrom f i db ops).1.rels, Linked (runOpsFrom f i db ops).1 r := by
  match ops with
  | [] => simpa [runOpsFrom] using hrels
  | .createTable n cs :: rest =>
    rw [runOpsFrom_cons]
    split_ifs with hfi
    · exact hrels
    · rcases hA : applyOp db (.createTable n cs) with e | db2
      · exact hrels
      · have hfacts := applyOp_createTable_ok hA
        have hctx : ctxOf db2 = ctxOf db := by simp [ctxOf, hfacts.2.1]
        have hok2 : RelOk (ctxOf db2) rest := by
          rw [hctx]; simpa only [RelOk] using hok
        have hrels2 : ∀ r ∈ db2.rels, Linked db2 r := by
          rw [hfacts.2.2.1]
          intro r hr
          exact Linked_of_records_superset (fun rec hrec => hfacts.2.1 ▸ hrec) (hrels r hr)
        exact runLinked rest f (i + 1) db2 hok2 hrels2
  | .putSchema row :: rest =>
    rw [runOpsFrom_cons]
    split_ifs with hfi
    · exact hrels
    · obtain ⟨db2, hA, hta, hre, hrl, _⟩ := applyOp_putSchema_ok db row
      rw [hA]
      have hctx : ctxOf db2 = ctxOf db := by simp [ctxOf, hre]
      have hok2 : RelOk (ctxOf db2) rest := by
        rw [hctx]; simpa only [RelOk] using hok
      have hrels2 : ∀ r ∈ db2.rels, Linked db2 r := by
        rw [hrl]
        intro r hr
        exact Linked_of_records_superset (fun rec hrec => hre ▸ hrec) (hrels r hr)
      exact runLinked rest f (i + 1) db2 hok2 hrels2
  | .insertRecord t id vals :: .insertRel r0 :: rest2 =>
    simp only [RelOk] at hok
    obtain ⟨⟨hc1, hc2, pt, hpt, hpm⟩, hok2⟩ := hok
    rw [runOpsFrom_cons]
    split_ifs with hfi
    · exact hrels
    · rcases hA : applyOp db (.insertRecord t id vals) with e | db2
      · exact hrels
      · have hfacts := applyOp_insertRecord_ok hA
        have hctx2 : ctxOf db2 = ctxOf db ++ [(id, t)] := by
          simp [ctxOf, hfacts.2.2.2.1]
        have hrecsub : ∀ rec ∈ db.records, rec ∈ db2.records := by
          intro rec hrec
          rw [hfacts.2.2.2.1]
          exact List.mem_append_left _ hrec
        have hrels2 : ∀ r ∈ db2.rels, Linked db2 r := by
          intro r hr
          have hr2 : r ∈ db.rels := by
            rwa [show db2.rels = db.rels from hfacts.2.2.1] at hr
          exact Linked_of_records_superset hrecsub (hrels r hr2)
        have main : ∀ r ∈ (runOpsFrom f (i + 1) db2 (.insertRel r0 :: rest2)).1.rels,
            Linked (runOpsFrom f (i + 1) db2 (.insertRel r0 :: rest2)).1 r := by
          rw [runOpsFrom_cons]
          split_ifs with hfi2
          · exact hrels2
          · rw [applyOp_insertRel db2 r0]
            have hctx3 : ctxOf { db2 with rels := db2.rels ++ [r0] } = ctxOf db2 := by
              simp [ctxOf]
            have hok3 : RelOk (ctxOf { db2 with rels := db2.rels ++ [r0] }) rest2 := by
              rw [hctx3, hctx2]
              refine RelOk_mono _ _ _ ?_ hok2
              intro x hx
              rcases List.mem_cons.mp hx with hx | hx
              · exact hx ▸ List.mem_append_right _ (by simp)
              · exact List.mem_append_left _ hx
            have hrels3 : ∀ r ∈ ({ db2 with rels := db2.rels ++ [r0] } : DB).rels,
                Linked { db2 with rels := db2.rels ++ [r0] } r := by
              intro r hr
              simp only [List.mem_append] at hr
              rcases hr with hr | hr
              · have hr2 : r ∈ db.rels := by
                  rwa [show db2.rels = db.rels from hfacts.2.2.1] at hr
                exact Linked_of_records_superset hrecsub (hrels r hr2)
              · have hr0 : r = r0 := by simpa using hr
                subst hr0
                constructor
                · refine ⟨pt, hpt, ?_⟩
                  rcases mem_ctxOf.mp hpm with ⟨rec, hrec, hrid, hrt⟩
                  exact ⟨rec, hrecsub rec hrec, hrid, hrt⟩
                · refine ⟨⟨id, t, vals⟩, ?_, by simpa using hc1.symm, by simpa using hc2.symm⟩
                  rw [hfacts.2.2.2.1]
                  exact List.mem_append_right _ (by simp)
            exact runLinked rest2 f (i + 2) _ hok3 hrels3
        exact main
  | .insertRecord t id vals :: [] =>
    rw [runOpsFrom_cons]
    split_ifs with hfi
    · exact hrels
    · rcases hA : applyOp db (.insertRecord t id vals) with e | db2
      · exact hrels
      · have hfacts := applyOp_insertRecord_ok hA
        have hrecsub : ∀ rec ∈ db.records, rec ∈ db2.records := by
          intro rec hrec
          rw [hfacts.2.2.2.1]
          exact List.mem_append_left _ hrec
        have hrels2 : ∀ r ∈ db2.rels, Linked db2 r := by
          intro r hr
          have hr2 : r ∈ db.rels := by
            rwa [show db2.rels = db.rels from hfacts.2.2.1] at hr
          exact Linked_of_records_superset hrecsub (hrels r hr2)
        exact runLinked [] f (i + 1) db2 (by simp [RelOk]) hrels2
  | .insertRecord t id vals :: .createTable n cs :: rest2 =>
    have hok3 : RelOk ((id, t) :: ctxOf db) rest2 := by simpa only [RelOk] using hok
    rw [runOpsFrom_cons]
    split_ifs with hfi
    · exact hrels
    · rcases hA : applyOp db (.insertRecord t id vals) with e | db2
      · exact hrels
      · have hfacts := applyOp_insertRecord_ok hA
        have hctx2 : ctxOf db2 = ctxOf db ++ [(id, t)] := by
          simp [ctxOf, hfacts.2.2.2.1]
        have hrecsub : ∀ rec ∈ db.records, rec ∈ db2.records := by
          intro rec hrec
          rw [hfacts.2.2.2.1]
          exact List.mem_append_left _ hrec
        have hok2 : RelOk (ctxOf db2) (.createTable n cs :: rest2) := by
          simp only [RelOk]
          rw [hctx2]
          refine RelOk_mono _ _ _ ?_ hok3
          intro x hx
          rcases List.mem_cons.mp hx with hx | hx
          · exact hx ▸ List.mem_append_right _ (by simp)
          · exact List.mem_append_left _ hx
        have hrels2 : ∀ r ∈ db2.rels, Linked db2 r := by
          intro r hr
          have hr2 : r ∈ db.rels := by
            rwa [show db2.rels = db.rels from hfacts.2.2.1] at hr
          exact Linked_of_records_superset hrecsub (hrels r hr2)
        exact runLinked (.createTable n cs :: rest2) f (i + 1) db2 hok2 hrels2
  | .insertRecord t id vals :: .putSchema row :: rest2 =>
    have hok3 : RelOk ((id, t) :: ctxOf db) rest2 := by simpa only [RelOk] using hok
    rw [runOpsFrom_cons]
    split_ifs with hfi
    · exact hrels
    · rcases hA : applyOp db (.insertRecord t id vals) with e | db2
      · exact hrels
      · have hfacts := applyOp_insertRecord_ok hA
        have hctx2 : ctxOf db2 = ctxOf db ++ [(id, t)] := by
          simp [ctxOf, hfacts.2.2.2.1]
        have hrecsub : ∀ rec ∈ db.records, rec ∈ db2.records := by
          intro rec hrec
          rw [hfacts.2.2.2.1]
          exact List.mem_append_left _ hrec
        have hok2 : RelOk (ctxOf db2) (.putSchema row :: rest2) := by
          simp only [RelOk]
          rw [hctx2]
          refine RelOk_mono _ _ _ ?_ hok3
          intro x hx
          rcases List.mem_cons.mp hx with hx | hx
          · exact hx ▸ List.mem_append_right _ (by simp)
          · exact List.mem_append_left _ hx
        have hrels2 : ∀ r ∈ db2.rels, Linked db2 r := by
          intro r hr
          have hr2 : r ∈ db.rels := by
            rwa [show db2.rels = db.rels from hfacts.2.2.1] at hr
          exact Linked_of_records_superset hrecsub (hrels r hr2)
        exact runLinked (.putSchema row :: rest2) f (i + 1) db2 hok2 hrels2
  | .insertRecord t id vals :: .insertRecord t2 id2 v2 :: rest2 =>
    have hok3 : RelOk ((id, t) :: ctxOf db) (.insertRecord t2 id2 v2 :: rest2) := by
      simpa only [RelOk] using hok
    rw [runOpsFrom_cons]
    split_ifs with hfi
    · exact hrels
    · rcases hA : applyOp db (.insertRecord t id vals) with e | db2
      · exact hrels
      · have hfacts := applyOp_insertRecord_ok hA
        have hctx2 : ctxOf db2 = ctxOf db ++ [(id, t)] := by
          simp [ctxOf, hfacts.2.2.2.1]
        have hrecsub : ∀ rec ∈ db.records, rec ∈ db2.records := by
          intro rec hrec
          rw [hfacts.2.2.2.1]
          exact List.mem_append_left _ hrec
        have hok2 : RelOk (ctxOf db2) (.insertRecord t2 id2 v2 :: rest2) := by
          rw [hctx2]
          refine RelOk_mono _ _ _ ?_ hok3
          intro x hx
          rcases List.mem_cons.mp hx with hx | hx
          · exact hx ▸ List.mem_append_right _ (by simp)
          · exact List.mem_append_left _ hx
        have hrels2 : ∀ r ∈ db2.rels, Linked db2 r := by
          intro r hr
          have hr2 : r ∈ db.rels := by
            rwa [show db2.rels = db.rels from hfacts.2.2.1] at hr
          exact Linked_of_records_superset hrecsub (hrels r hr2)
        exact runLinked (.insertRecord t2 id2 v2 :: rest2) f (i + 1) db2 hok2 hrels2
  | .insertRel r0 :: rest =>
    exact absurd hok (by simp [RelOk])
termination_by ops.length
decreasing_by all_goals (simp only [List.length_cons]; omega)

/-- Claim C3: for every input document, (a) the statement trace of
`index_json` satisfies the relationship discipline `RelOk`: every
relationship append is immediately preceded by the insert of its child
record (same id, same table) and names a parent id/parent table inserted
strictly earlier in the trace; and (b) in the database state produced by the
run — including a run aborted by a storage failure — every ledger row is
linked: a record with id `parent_id` exists in table `parent_table` and a
record with id `child_id` exists in table `child_table`.  No relationship
entry ever references an id that was never inserted. -/
theorem C3_lineage_closure (doc : List (String × Json)) :
    RelOk [] (index_json_ops doc 0).1 ∧
    ∀ r ∈ (index_json doc).1.rels, Linked (index_json doc).1 r := by
  refine ⟨(rel_index_json_ops doc 0 []).1, ?_⟩
  have h := runLinked (index_json_ops doc 0).1 noFault 0 initDB
    (by
      have := (rel_index_json_ops doc 0 (ctxOf initDB)).1
      simpa [ctxOf, initDB] using this)
    (by intro r hr; simp [initDB] at hr)
  simpa [index_json, index_json_f] using h

mutual

theorem schema_insert_data (tableName : String) (data : Json) (parentId : Option Nat)
    (parentTable : Option String) (nid : Nat) :
    ∀ row, StorageOp.putSchema row ∈ (insert_data tableName data parentId parentTable nid).1 →
      SchemaCond row := by
  cases data with
  | arr items =>
    simp only [insert_data]
    exact schema_insertItems tableName items parentId parentTable nid 0
  | obj kvs =>
    intro row hrow
    cases parentId with
    | none =>
      simp only [insert_data, List.mem_append, List.mem_cons, List.not_mem_nil,
        or_false, false_or, reduceCtorEq] at hrow
      exact schema_processFields tableName kvs nid (nid + 1) row hrow
    | some pid =>
      simp only [insert_data, List.mem_append, List.mem_cons, List.not_mem_nil,
        or_false, false_or, reduceCtorEq] at hrow
      exact schema_processFields tableName kvs nid (nid + 1) row hrow
  | null => intro row hrow; simp [insert_data] at hrow
  | bool b => intro row hrow; simp [insert_data] at hrow
  | num n => intro row hrow; simp [insert_data] at hrow
  | str s => intro row hrow; simp [insert_data] at hrow
termination_by 3 * Json.size data
decreasing_by all_goals first | omega | (simp only [Json.size, Json.sizeArr, Json.sizeObj]; omega)

theorem schema_insertItems (tableName : String) (items : List Json) (parentId : Option Nat)
    (parentTable : Option String) (nid : Nat) (i : Nat) :
    ∀ row, StorageOp.putSchema row ∈ (insertItems tableName items parentId parentTable nid i).1 →
      SchemaCond row := by
  match items with
  | [] => intro row hrow; simp [insertItems] at hrow
  | .obj kvs :: rest =>
    intro row hrow
    cases parentId with
    | none =>
      simp only [insertItems, List.mem_append, List.mem_cons, List.not_mem_nil,
        or_false, false_or, reduceCtorEq] at hrow
      rcases hrow with hrow | hrow
      · exact schema_processFields tableName kvs nid (nid + 1) row hrow
      · exact schema_insertItems tableName rest none parentTable
          (processFields tableName kvs nid (nid + 1)).2 (i + 1) row hrow
    | some pid =>
      simp only [insertItems, List.mem_append, List.mem_cons, List.not_mem_nil,
        or_false, false_or, reduceCtorEq] at hrow
      rcases hrow with hrow | hrow
      · exact schema_processFields tableName kvs nid (nid + 1) row hrow
      · exact schema_insertItems tableName rest (some pid) parentTable
          (processFields tableName kvs nid (nid + 1)).2 (i + 1) row hrow
  | .null :: rest =>
    simp only [insertItems]
    exact schema_insertItems tableName rest parentId parentTable nid (i + 1)
  | .bool b :: rest =>
    simp only [insertItems]
    exact schema_insertItems tableName rest parentId parentTable nid (i + 1)
  | .num n :: rest =>
    simp only [insertItems]
    exact schema_insertItems tableName rest parentId parentTable nid (i + 1)
  | .str s :: rest =>
    simp only [insertItems]
    exact schema_insertItems tableName rest parentId parentTable nid (i + 1)
  | .arr xs :: rest =>
    simp only [insertItems]
    exact schema_insertItems tableName rest parentId parentTable nid (i + 1)
termination_by 3 * Json.sizeArr items + 2
decreasing_by all_goals first | omega | (simp only [Json.size, Json.sizeArr, Json.sizeObj]; omega)

theorem schema_processFields (tableName : String) (kvs : List (String × Json))
    (recordId : Nat) (nid : Nat) :
    ∀ row, StorageOp.putSchema row ∈ (processFields tableName kvs recordId nid).1 →
      SchemaCond row := by
  match kvs with
  | [] => intro row hrow; simp [processFields] at hrow
  | (key, value) :: rest =>
    intro row hrow
    rcases htv : value.isTruthyContainer with _ | _
    · rw [processFields] at hrow
      simp only [htv, Bool.false_eq_true, if_false, List.nil_append] at hrow
      exact schema_processFields tableName rest recordId nid row hrow
    · rw [processFields] at hrow
      simp only [htv, if_true, List.mem_append] at hrow
      rcases hrow with hrow | hrow
      · exact schema_process_nested (tableName ++ "_" ++ key) value recordId
          tableName nid row hrow
      · exact schema_processFields tableName rest recordId
          (process_nested_data (tableName ++ "_" ++ key) value recordId tableName nid).2
          row hrow
termination_by 3 * Json.sizeObj kvs + 2
decreasing_by all_goals first | omega | (simp only [Json.size, Json.sizeArr, Json.sizeObj]; omega)

theorem schema_process_nested (tableName : String) (data : Json) (parentId : Nat)
    (parentTable : String) (nid : Nat) :
    ∀ row, StorageOp.putSchema row ∈
        (process_nested_data tableName data parentId parentTable nid).1 →
      SchemaCond row := by
  cases data with
  | arr items =>
    intro row hrow
    rcases hcnd : (!items.isEmpty && items.all Json.isObj) with _ | _
    · rw [process_nested_data] at hrow
      simp [hcnd] at hrow
    · rw [process_nested_data] at hrow
      simp only [hcnd, if_true, create_table, List.cons_append, List.nil_append,
        List.mem_cons, reduceCtorEq, false_or] at hrow
      rcases hrow with hrow | hrow
      · rw [StorageOp.putSchema.injEq] at hrow
        subst hrow
        exact Or.inl ⟨rfl, items.length, rfl⟩
      · exact schema_insert_data tableName (.arr items) (some parentId)
          (some parentTable) nid row hrow
  | obj kvs =>
    intro row hrow
    rw [process_nested_data] at hrow
    simp only [create_table, List.cons_append, List.nil_append,
      List.mem_cons, reduceCtorEq, false_or] at hrow
    rcases hrow with hrow | hrow
    · rw [StorageOp.putSchema.injEq] at hrow
      subst hrow
      exact Or.inr ⟨rfl, rfl⟩
    · exact schema_insert_data tableName (.obj kvs) (some parentId)
        (some parentTable) nid row hrow
  | null => intro row hrow; simp [process_nested_data] at hrow
  | bool b => intro row hrow; simp [process_nested_data] at hrow
  | num n => intro row hrow; simp [process_nested_data] at hrow
  | str s => intro row hrow; simp [process_nested_data] at hrow
termination_by 3 * Json.size data + 1
decreasing_by all_goals first | omega | (simp only [Json.size, Json.sizeArr, Json.sizeObj]; omega)

end

theorem schema_indexKey (key : String) (value : Json) (nid : Nat) :
    ∀ row, StorageOp.putSchema row ∈ (indexKeyOps key value nid).1 → SchemaCond row := by
  intro row hrow
  cases value with
  | arr items =>
    rcases hcnd : items.all Json.isObj with _ | _
    · rw [indexKeyOps] at hrow
      simp only [hcnd, Bool.false_eq_true, if_false, create_table,
        List.cons_append, List.nil_append, List.mem_cons, reduceCtorEq, false_or] at hrow
      rcases hrow with hrow | hrow
      · rw [StorageOp.putSchema.injEq] at hrow
        subst hrow
        exact Or.inr ⟨rfl, rfl⟩
      · exact schema_insert_data key (.obj [("value", .arr items)]) none none nid row hrow
    · rw [indexKeyOps] at hrow
      simp only [hcnd, if_true, create_table,
        List.cons_append, List.nil_append, List.mem_cons, reduceCtorEq, false_or] at hrow
      rcases hrow with hrow | hrow
      · rw [StorageOp.putSchema.injEq] at hrow
        subst hrow
        exact Or.inl ⟨rfl, items.length, rfl⟩
      · exact schema_insert_data key (.arr items) none none nid row hrow
  | obj kvs =>
    rw [indexKeyOps] at hrow
    simp only [create_table, List.cons_append, List.nil_append,
      List.mem_cons, reduceCtorEq, false_or] at hrow
    rcases hrow with hrow | hrow
    · rw [StorageOp.putSchema.injEq] at hrow
      subst hrow
      exact Or.inr ⟨rfl, rfl⟩
    · exact schema_insert_data key (.obj kvs) none none nid row hrow
  | null =>
    simp only [indexKeyOps, create_table, List.cons_append, List.nil_append,
      List.mem_cons, reduceCtorEq, false_or] at hrow
    rcases hrow with hrow | hrow
    · rw [StorageOp.putSchema.injEq] at hrow
      subst hrow
      exact Or.inr ⟨rfl, rfl⟩
    · exact schema_insert_data key (.obj [("value", .null)]) none none nid row hrow
  | bool b =>
    simp only [indexKeyOps, create_table, List.cons_append, List.nil_append,
      List.mem_cons, reduceCtorEq, false_or] at hrow
    rcases hrow with hrow | hrow
    · rw [StorageOp.putSchema.injEq] at hrow
      subst hrow
      exact Or.inr ⟨rfl, rfl⟩
    · exact schema_insert_data key (.obj [("value", .bool b)]) none none nid row hrow
  | num n =>
    simp only [indexKeyOps, create_table, List.cons_append, List.nil_append,
      List.mem_cons, reduceCtorEq, false_or] at hrow
    rcases hrow with hrow | hrow
    · rw [StorageOp.putSchema.injEq] at hrow
      subst hrow
      exact Or.inr ⟨rfl, rfl⟩
    · exact schema_insert_data key (.obj [("value", .num n)]) none none nid row hrow
  | str s =>
    simp only [indexKeyOps, create_table, List.cons_append, List.nil_append,
      List.mem_cons, reduceCtorEq, false_or] at hrow
    rcases hrow with hrow | hrow
    · rw [StorageOp.putSchema.injEq] at hrow
      subst hrow
      exact Or.inr ⟨rfl, rfl⟩
    · exact schema_insert_data key (.obj [("value", .str s)]) none none nid row hrow

theorem schema_index_json_ops (doc : List (String × Json)) :
    ∀ (nid : Nat) (row : SchemaRow),
      StorageOp.putSchema row ∈ (index_json_ops doc nid).1 → SchemaCond row := by
  induction doc with
  | nil => intro nid row hrow; simp [index_json_ops] at hrow
  | cons kv rest ih =>
    intro nid row hrow
    rw [index_json_ops] at hrow
    simp only [List.mem_append] at hrow
    rcases hrow with hrow | hrow
    · exact schema_indexKey kv.1 kv.2 nid row hrow
    · exact ih (indexKeyOps kv.1 kv.2 nid).2 row hrow

/-- Claim C6, amended: every catalog row registered by indexing satisfies the
count discipline the code actually implements — array tables carry
`count = len(source array)` while singleton-object and scalar tables carry a
NULL count (the object and scalar call sites of `create_table` pass no
`count` argument), not 1.  Conjuncts: (1) every catalog row of any run is an
array row with some count or a non-array row with no count; (2) a top-level
array of objects registers its catalog row with `count = len(value)`;
(3) a nested array of objects registers its catalog row with
`count = len(data)`. -/
theorem C6_expected_count_discipline :
    (∀ (doc : List (String × Json)) (row : SchemaRow),
      row ∈ (index_json doc).1.schema_info →
      (row.is_array = true ∧ ∃ n, row.count = some n) ∨
      (row.is_array = false ∧ row.count = none)) ∧
    (∀ (key : String) (items : List Json) (nid : Nat),
      items.all Json.isObj = true →
      StorageOp.putSchema ⟨key, none,
        some ("Top-level array containing " ++ toString items.length ++ " items"),
        true, some items.length⟩ ∈ (indexKeyOps key (.arr items) nid).1) ∧
    (∀ (t pt : String) (items : List Json) (pid nid : Nat),
      items.isEmpty = false → items.all Json.isObj = true →
      StorageOp.putSchema ⟨t, some pt,
        some ("Array of " ++ toString items.length ++ " items from " ++ pt),
        true, some items.length⟩ ∈
        (process_nested_data t (.arr items) pid pt nid).1) := by
  refine ⟨?_, ?_, ?_⟩
  · intro doc row hrow
    simp only [index_json, index_json_f] at hrow
    rcases runOpsFrom_schema_origin noFault (index_json_ops doc 0).1 0 initDB row hrow with
      hm | hm
    · simp [initDB] at hm
    · exact schema_index_json_ops doc 0 row hm
  · intro key items nid hall
    rw [indexKeyOps]
    simp only [hall, if_true, create_table, List.cons_append, List.nil_append]
    exact List.mem_cons_of_mem _ (List.mem_cons_self _ _)
  · intro t pt items pid nid hne hall
    rw [process_nested_data]
    simp only [hne, hall, Bool.not_false, Bool.and_self, if_true, create_table,
      List.cons_append, List.nil_append]
    exact List.mem_cons_of_mem _ (List.mem_cons_self _ _)

/-- Witness for the amended claim C6: a one-element top-level array and a
one-element nested array both register their catalog row with count 1, and
the catalog row of the `c6doc` run (a singleton object) satisfies the
dichotomy with a NULL count. -/
theorem C6_expected_count_discipline_witness :
    (([Json.obj [("a", Json.num 1)]].all Json.isObj = true) ∧
      ([Json.obj [("a", Json.num 1)]].isEmpty = false)) ∧
    (StorageOp.putSchema ⟨"k", none,
        some ("Top-level array containing " ++
          toString [Json.obj [("a", Json.num 1)]].length ++ " items"),
        true, some [Json.obj [("a", Json.num 1)]].length⟩ ∈
      (indexKeyOps "k" (.arr [Json.obj [("a", Json.num 1)]]) 0).1) ∧
    (StorageOp.putSchema ⟨"p_c", some "p",
        some ("Array of " ++ toString [Json.obj [("a", Json.num 1)]].length ++
          " items from " ++ "p"),
        true, some [Json.obj [("a", Json.num 1)]].length⟩ ∈
      (process_nested_data "p_c" (.arr [Json.obj [("a", Json.num 1)]]) 0 "p" 5).1) :=
  ⟨⟨by decide, by decide⟩,
    C6_expected_count_discipline.2.1 "k" [Json.obj [("a", Json.num 1)]] 0 (by decide),
    C6_expected_count_discipline.2.2 "p_c" "p" [Json.obj [("a", Json.num 1)]] 0 5
      (by decide) (by decide)⟩

theorem hasEmptyKey_map_pyStr (kvs : List (String × Json)) :
    hasEmptyKey (kvs.map (fun kv => (kv.1, pyStr kv.2))) =
      kvs.any (fun kv => kv.1.isEmpty) := by
  induction kvs with
  | nil => rfl
  | cons kv rest ih =>
    simp only [hasEmptyKey, List.map_cons, List.any_cons] at ih ⊢
    rw [ih]

theorem seenAfter_true (ops : List StorageOp) : seenAfter true ops = true := by
  induction ops with
  | nil => rfl
  | cons op rest ih =>
    cases op with
    | insertRecord t id vals => simpa [seenAfter] using ih
    | createTable n cs => simpa [seenAfter] using ih
    | putSchema row => simpa [seenAfter] using ih
    | insertRel r => simpa [seenAfter] using ih

theorem GuardOk_impl (ops : List StorageOp) :
    ∀ (s1 s2 : Bool), (s1 = true → s2 = true) → GuardOk s1 ops → GuardOk s2 ops := by
  induction ops with
  | nil => intro s1 s2 _ _; simp [GuardOk]
  | cons op rest ih =>
    intro s1 s2 himp h
    cases op with
    | putSchema row =>
      simp only [GuardOk] at h ⊢
      refine ⟨?_, ih s1 s2 himp h.2⟩
      intro p hp
      rcases h.1 p hp with ⟨k, hk1, hk2⟩
      exact ⟨k, hk1, fun hke => himp (hk2 hke)⟩
    | insertRecord t id vals =>
      simp only [GuardOk] at h ⊢
      refine ih _ _ ?_ h
      intro hor
      rcases Bool.or_eq_true_iff.mp hor with h1 | h1
      · simp [himp h1]
      · simp [h1]
    | createTable n cs =>
      simp only [GuardOk] at h ⊢
      exact ih s1 s2 himp h
    | insertRel r =>
      simp only [GuardOk] at h ⊢
      exact ih s1 s2 himp h

theorem GuardOk_append (xs ys : List StorageOp) :
    ∀ (s : Bool), GuardOk s xs → GuardOk (seenAfter s xs) ys →
    GuardOk s (xs ++ ys) := by
  induction xs with
  | nil => intro s _ hy; simpa [seenAfter] using hy
  | cons op rest ih =>
    intro s hx hy
    cases op with
    | putSchema row =>
      simp only [GuardOk, seenAfter, List.cons_append] at hx hy ⊢
      exact ⟨hx.1, ih s hx.2 hy⟩
    | insertRecord t id vals =>
      simp only [GuardOk, seenAfter, List.cons_append] at hx hy ⊢
      exact ih _ hx hy
    | createTable n cs =>
      simp only [GuardOk, seenAfter, List.cons_append] at hx hy ⊢
      exact ih s hx hy
    | insertRel r =>
      simp only [GuardOk, seenAfter, List.cons_append] at hx hy ⊢
      exact ih s hx hy

mutual

theorem guard_insert_data (tableName : String) (data : Json) (parentId : Option Nat)
    (parentTable : Option String) (nid : Nat) (seen : Bool) :
    GuardOk seen (insert_data tableName data parentId parentTable nid).1 := by
  cases data with
  | arr items =>
    simp only [insert_data]
    exact guard_insertItems tableName items parentId parentTable nid 0 seen
  | obj kvs =>
    cases parentId with
    | none =>
      simp only [insert_data, List.cons_append, List.nil_append, GuardOk]
      refine guard_processFields tableName kvs nid (nid + 1) _ ?_
      intro hk
      rw [hasEmptyKey_map_pyStr, hk]
      simp
    | some pid =>
      simp only [insert_data, List.cons_append, List.nil_append, GuardOk]
      refine guard_processFields tableName kvs nid (nid + 1) _ ?_
      intro hk
      rw [hasEmptyKey_map_pyStr, hk]
      simp
  | null => simp [insert_data, GuardOk]
  | bool b => simp [insert_data, GuardOk]
  | num n => simp [insert_data, GuardOk]
  | str s => simp [insert_data, GuardOk]
termination_by 3 * Json.size data
decreasing_by all_goals first | omega | (simp only [Json.size, Json.sizeArr, Json.sizeObj]; omega)

theorem guard_insertItems (tableName : String) (items : List Json) (parentId : Option Nat)
    (parentTable : Option String) (nid : Nat) (i : Nat) (seen : Bool) :
    GuardOk seen (insertItems tableName items parentId parentTable nid i).1 := by
  match items with
  | [] => simp [insertItems, GuardOk]
  | .obj kvs :: rest =>
    cases parentId with
    | none =>
      simp only [insertItems, List.cons_append, List.nil_append, GuardOk]
      refine GuardOk_append _ _ _ ?_ ?_
      · refine guard_processFields tableName kvs nid (nid + 1) _ ?_
        intro hk
        rw [hasEmptyKey_map_pyStr, hk]
        simp
      · exact guard_insertItems tableName rest none parentTable
          (processFields tableName kvs nid (nid + 1)).2 (i + 1) _
    | some pid =>
      simp only [insertItems, List.cons_append, List.nil_append, GuardOk]
      refine GuardOk_append _ _ _ ?_ ?_
      · refine guard_processFields tableName kvs nid (nid + 1) _ ?_
        intro hk
        rw [hasEmptyKey_map_pyStr, hk]
        simp
      · exact guard_insertItems tableName rest (some pid) parentTable
          (processFields tableName kvs nid (nid + 1)).2 (i + 1) _
  | .null :: rest =>
    simp only [insertItems]
    exact guard_insertItems tableName rest parentId parentTable nid (i + 1) seen
  | .bool b :: rest =>
    simp only [insertItems]
    exact guard_insertItems tableName rest parentId parentTable nid (i + 1) seen
  | .num n :: rest =>
    simp only [insertItems]
    exact guard_insertItems tableName rest parentId parentTable nid (i + 1) seen
  | .str s :: rest =>
    simp only [insertItems]
    exact guard_insertItems tableName rest parentId parentTable nid (i + 1) seen
  | .arr xs :: rest =>
    simp only [insertItems]
    exact guard_insertItems tableName rest parentId parentTable nid (i + 1) seen
termination_by 3 * Json.sizeArr items + 2
decreasing_by all_goals first | omega | (simp only [Json.size, Json.sizeArr, Json.sizeObj]; omega)

theorem guard_processFields (tableName : String) (kvs : List (String × Json))
    (recordId : Nat) (nid : Nat) (seen : Bool)
    (hk : kvs.any (fun kv => kv.1.isEmpty) = true → seen = true) :
    GuardOk seen (processFields tableName kvs recordId nid).1 := by
  match kvs with
  | [] => simp [processFields, GuardOk]
  | (key, value) :: rest =>
    rcases htv : value.isTruthyContainer with _ | _
    · rw [processFields]
      simp only [htv, Bool.false_eq_true, if_false, List.nil_append]
      refine guard_processFields tableName rest recordId nid seen ?_
      intro hrest
      exact hk (by simp [List.any_cons, hrest])
    · rw [processFields]
      simp only [htv, if_true]
      refine GuardOk_append _ _ _ ?_ ?_
      · refine guard_process_nested (tableName ++ "_" ++ key) value recordId
          tableName nid seen ⟨key, rfl, ?_⟩
        intro hke
        refine hk ?_
        simp only [List.any_cons, hke, Bool.or_eq_true]
        exact Or.inl (by decide)
      · refine guard_processFields tableName rest recordId
          (process_nested_data (tableName ++ "_" ++ key) value recordId tableName nid).2
          _ ?_
        intro hrest
        have hseen : seen = true := hk (by simp [List.any_cons, hrest])
        rw [hseen, seenAfter_true]
termination_by 3 * Json.sizeObj kvs + 2
decreasing_by all_goals first | omega | (simp only [Json.size, Json.sizeArr, Json.sizeObj]; omega)

theorem guard_process_nested (tableName : String) (data : Json) (parentId : Nat)
    (parentTable : String) (nid : Nat) (seen : Bool)
    (hname : ∃ k, tableName = parentTable ++ "_" ++ k ∧ (k = "" → seen = true)) :
    GuardOk seen (process_nested_data tableName data parentId parentTable nid).1 := by
  cases data with
  | arr items =>
    rcases hcnd : (!items.isEmpty && items.all Json.isObj) with _ | _
    · rw [process_nested_data]
      simp [hcnd, GuardOk]
    · rw [process_nested_data]
      simp only [hcnd, if_true, create_table, List.cons_append, List.nil_append,
        GuardOk]
      refine ⟨?_, guard_insert_data tableName (.arr items) (some parentId)
        (some parentTable) nid seen⟩
      intro p hp
      injection hp with hp
      subst hp
      exact hname
  | obj kvs =>
    rw [process_nested_data]
    simp only [create_table, List.cons_append, List.nil_append, GuardOk]
    refine ⟨?_, guard_insert_data tableName (.obj kvs) (some parentId)
      (some parentTable) nid seen⟩
    intro p hp
    injection hp with hp
    subst hp
    exact hname
  | null => simp [process_nested_data, GuardOk]
  | bool b => simp [process_nested_data, GuardOk]
  | num n => simp [process_nested_data, GuardOk]
  | str s => simp [process_nested_data, GuardOk]
termination_by 3 * Json.size data + 1
decreasing_by all_goals first | omega | (simp only [Json.size, Json.sizeArr, Json.sizeObj]; omega)

end

theorem guard_indexKey (key : String) (value : Json) (nid : Nat) (seen : Bool) :
    GuardOk seen (indexKeyOps key value nid).1 := by
  cases value with
  | arr items =>
    rcases hcnd : items.all Json.isObj with _ | _
    · rw [indexKeyOps]
      simp only [hcnd, Bool.false_eq_true, if_false, create_table,
        List.cons_append, List.nil_append, GuardOk]
      exact ⟨fun p hp => Option.noConfusion hp,
        guard_insert_data key (.obj [("value", .arr items)]) none none nid seen⟩
    · rw [indexKeyOps]
      simp only [hcnd, if_true, create_table,
        List.cons_append, List.nil_append, GuardOk]
      exact ⟨fun p hp => Option.noConfusion hp,
        guard_insert_data key (.arr items) none none nid seen⟩
  | obj kvs =>
    rw [indexKeyOps]
    simp only [create_table, List.cons_append, List.nil_append, GuardOk]
    exact ⟨fun p hp => Option.noConfusion hp,
      guard_insert_data key (.obj kvs) none none nid seen⟩
  | null =>
    simp only [indexKeyOps, create_table, List.cons_append, List.nil_append, GuardOk]
    exact ⟨fun p hp => Option.noConfusion hp,
      guard_insert_data key (.obj [("value", .null)]) none none nid seen⟩
  | bool b =>
    simp only [indexKeyOps, create_table, List.cons_append, List.nil_append, GuardOk]
    exact ⟨fun p hp => Option.noConfusion hp,
      guard_insert_data key (.obj [("value", .bool b)]) none none nid seen⟩
  | num n =>
    simp only [indexKeyOps, create_table, List.cons_append, List.nil_append, GuardOk]
    exact ⟨fun p hp => Option.noConfusion hp,
      guard_insert_data key (.obj [("value", .num n)]) none none nid seen⟩
  | str s =>
    simp only [indexKeyOps, create_table, List.cons_append, List.nil_append, GuardOk]
    exact ⟨fun p hp => Option.noConfusion hp,
      guard_insert_data key (.obj [("value", .str s)]) none none nid seen⟩

theorem guard_index_json_ops (doc : List (String × Json)) :
    ∀ (nid : Nat) (seen : Bool), GuardOk seen (index_json_ops doc nid).1 := by
  induction doc with
  | nil => intro nid seen; simp [index_json_ops, GuardOk]
  | cons kv rest ih =>
    intro nid seen
    rw [index_json_ops]
    exact GuardOk_append _ _ _ (guard_indexKey kv.1 kv.2 nid seen)
      (ih (indexKeyOps kv.1 kv.2 nid).2 _)

theorem runGuard (ops : List StorageOp) (f : Nat → Bool) (i : Nat) (db : DB)
    (hg : GuardOk false ops) (hrows : ∀ row ∈ db.schema_info, GoodName row) :
    ∀ row ∈ (runOpsFrom f i db ops).1.schema_info, GoodName row := by
  induction ops generalizing i db with
  | nil => simpa [runOpsFrom] using hrows
  | cons op rest ih =>
    rw [runOpsFrom_cons]
    split_ifs with hfi
    · exact hrows
    · cases op with
      | createTable n cs =>
        rcases hA : applyOp db (.createTable n cs) with e | db2
        · exact hrows
        · have hfacts := applyOp_createTable_ok hA
          refine ih _ _ (by simpa only [GuardOk] using hg) ?_
          rw [hfacts.1]
          exact hrows
      | putSchema row0 =>
        obtain ⟨db2, hA, _, _, _, hmem⟩ := applyOp_putSchema_ok db row0
        rw [hA]
        simp only [GuardOk] at hg
        refine ih _ _ hg.2 ?_
        intro row hrow
        rcases hmem row hrow with hm | hm
        · exact hrows row hm
        · subst hm
          intro p hp
          rcases hg.1 p hp with ⟨k, hk1, hk2⟩
          refine ⟨k, ?_, hk1⟩
          intro hke
          exact Bool.noConfusion (hk2 hke)
      | insertRecord t id vals =>
        rcases hA : applyOp db (.insertRecord t id vals) with e | db2
        · exact hrows
        · have hfacts := applyOp_insertRecord_ok hA
          simp only [GuardOk, Bool.false_or] at hg
          rw [hfacts.2.2.2.2] at hg
          refine ih _ _ hg ?_
          rw [hfacts.2.1]
          exact hrows
      | insertRel r0 =>
        rw [applyOp_insertRel]
        simp only [GuardOk] at hg
        exact ih _ _ hg hrows

theorem levelRows_row_mem {cat : List SchemaRow} {k : Nat} {hr : HRow}
    (h : hr ∈ levelRows cat k) : hr.row ∈ cat := by
  cases k with
  | zero =>
    simp only [levelRows, List.mem_map] at h
    obtain ⟨s, hs, rfl⟩ := h
    exact (List.mem_filter.mp hs).1
  | succ k =>
    simp only [levelRows, List.mem_flatMap] at h
    obtain ⟨h0, _, hc⟩ := h
    simp only [childrenOf, List.mem_map] at hc
    obtain ⟨s, hs, rfl⟩ := hc
    exact (List.mem_filter.mp hs).1

theorem str_len_zero {s : String} (h : s.length = 0) : s = "" := by
  rcases s with ⟨l⟩
  simp [String.length] at h
  simp [h]

theorem levelRows_length_bound {cat : List SchemaRow}
    (hcat : ∀ row ∈ cat, GoodName row) :
    ∀ (k : Nat), ∀ hr ∈ levelRows cat k, 2 * k ≤ hr.row.table_name.length := by
  intro k
  induction k with
  | zero => intro hr _; omega
  | succ k ih =>
    intro hr h
    simp only [levelRows, List.mem_flatMap] at h
    obtain ⟨h0, h0mem, hc⟩ := h
    simp only [childrenOf, List.mem_map] at hc
    obtain ⟨s, hs, rfl⟩ := hc
    have hsp : s.parent_table = some h0.row.table_name := by
      have := (List.mem_filter.mp hs).2
      simpa using this
    have hsmem : s ∈ cat := (List.mem_filter.mp hs).1
    obtain ⟨key, hkey, hname⟩ := hcat s hsmem h0.row.table_name hsp
    have hklen : key.length ≠ 0 := by
      intro h0len
      exact hkey (str_len_zero h0len)
    have hbound := ih h0 h0mem
    have hlen : s.table_name.length =
        h0.row.table_name.length + 1 + key.length := by
      rw [hname, String.length_append, String.length_append]
      rfl
    simp only [hlen]
    omega

theorem levelRows_eq_nil_of_long {cat : List SchemaRow}
    (hcat : ∀ row ∈ cat, GoodName row) (k : Nat)
    (hk : (cat.map (fun s => s.table_name.length)).sum < k) :
    levelRows cat k = [] := by
  rw [List.eq_nil_iff_forall_not_mem]
  intro hr hmem
  have h1 := levelRows_length_bound hcat k hr hmem
  have h2 : hr.row.table_name.length ≤
      (cat.map (fun s => s.table_name.length)).sum := by
    refine List.single_le_sum (by intro x _; omega) _ ?_
    exact List.mem_map.mpr ⟨hr.row, levelRows_row_mem hmem, rfl⟩
  omega

theorem index_json_goodNames (doc : List (String × Json)) :
    ∀ row ∈ (index_json doc).1.schema_info, GoodName row := by
  refine runGuard (index_json_ops doc 0).1 noFault 0 initDB
    (guard_index_json_ops doc 0 false) ?_
  intro row hrow
  simp [initDB] at hrow

theorem scen2_eval : index_json scen2doc =
    (⟨[⟨"user", ["name", "address"]⟩, ⟨"user_address", ["city"]⟩],
      [⟨"user", none, some "Top-level object", false, none⟩,
       ⟨"user_address", some "user", some "Object field from user", false, none⟩],
      [⟨0, "user", [("name", "Alice"), ("address", "\x7b\x27city\x27: \x27NY\x27\x7d")]⟩,
       ⟨1, "user_address", [("city", "NY")]⟩],
      [⟨1, 0, "user_address", some "user", "object_field"⟩]⟩, none) := by
  simp [index_json, index_json_f, index_json_ops, indexKeyOps, insert_data,
    insertItems, processFields, process_nested_data, create_table, unionKeys,
    setUpdate, setInsert, Json.keys, Json.isObj, Json.isTruthyContainer,
    pyStr, pyRepr, pyStrArr, pyStrObj, pyQuote, pyEscChar, runOpsFrom, applyOp,
    badIdent, noFault, initDB, scen2doc]
  decide

/-- C10: every catalog row written by `index_json` that carries a parent link
has `table_name = parent_table ++ "_" ++ key` for a non-empty `key` (the
child's name strictly extends the parent's), and consequently the recursive
hierarchy CTE terminates: every level of `levelRows` beyond the total length
of the registered names is empty. -/
theorem C10_parent_names_extend_so_hierarchy_terminates
    (doc : List (String × Json)) :
    (∀ row ∈ (index_json doc).1.schema_info, GoodName row) ∧
    (∀ k, (((index_json doc).1.schema_info.map
        (fun s => s.table_name.length)).sum < k →
      levelRows (index_json doc).1.schema_info k = [])) :=
  ⟨index_json_goodNames doc,
   fun k hk => levelRows_eq_nil_of_long (index_json_goodNames doc) k hk⟩

theorem C10_parent_names_extend_so_hierarchy_terminates_witness :
    (∃ k, k ≠ "" ∧ "user_address" = "user" ++ "_" ++ k) ∧
    levelRows (index_json scen2doc).1.schema_info 17 = [] := by
  constructor
  · exact (C10_parent_names_extend_so_hierarchy_terminates scen2doc).1
      ⟨"user_address", some "user", some "Object field from user", false, none⟩
      (by rw [scen2_eval]; decide) "user" rfl
  · exact (C10_parent_names_extend_so_hierarchy_terminates scen2doc).2 17
      (by rw [scen2_eval]; decide)

theorem chain_head {cat : List SchemaRow} {s : SchemaRow} {l : List SchemaRow}
    (h : ChainUp cat s l) : ∃ t, l = s :: t := by
  cases h with
  | root s hmem hp => exact ⟨[], rfl⟩
  | step p s l0 hc hmem hp => exact ⟨l0, rfl⟩

theorem chain_mem_cat {cat : List SchemaRow} {s : SchemaRow} {l : List SchemaRow}
    (h : ChainUp cat s l) : ∀ x ∈ l, x ∈ cat := by
  induction h with
  | root s hmem hp => intro x hx; simp at hx; subst hx; exact hmem
  | step p s l0 hc hmem hp ih =>
    intro x hx
    rcases List.mem_cons.mp hx with hx | hx
    · subst hx; exact hmem
    · exact ih x hx

theorem chain_mem_suffix {cat : List SchemaRow} {p : SchemaRow}
    {l : List SchemaRow} (h : ChainUp cat p l) :
    ∀ s ∈ l, ∃ l2, ChainUp cat s l2 ∧ l2 <:+ l := by
  induction h with
  | root q hmem hp =>
    intro s hs
    simp at hs
    subst hs
    exact ⟨[s], .root s hmem hp, List.suffix_refl _⟩
  | step q r l0 hc hmem hp ih =>
    intro s hs
    rcases List.mem_cons.mp hs with hs | hs
    · subst hs
      exact ⟨s :: l0, .step q s l0 hc hmem hp, List.suffix_refl _⟩
    · obtain ⟨l2, hl2, hsuf⟩ := ih s hs
      exact ⟨l2, hl2, hsuf.trans (List.suffix_cons r l0)⟩

theorem chain_compress {cat : List SchemaRow} {s : SchemaRow}
    {l : List SchemaRow} (h : ChainUp cat s l) :
    ∃ l2, ChainUp cat s l2 ∧ l2.Nodup ∧ l2.length ≤ l.length := by
  induction h with
  | root q hmem hp =>
    exact ⟨[q], .root q hmem hp, by simp, by simp⟩
  | step q r l0 hc hmem hp ih =>
    obtain ⟨l0x, hcx, hnd, hlen⟩ := ih
    by_cases hr : r ∈ l0x
    · obtain ⟨l2, hl2, hsuf⟩ := chain_mem_suffix hcx r hr
      refine ⟨l2, hl2, List.Nodup.sublist hsuf.sublist hnd, ?_⟩
      have := hsuf.sublist.length_le
      simp only [List.length_cons]
      omega
    · refine ⟨r :: l0x, .step q r l0x hcx hmem hp, ?_, ?_⟩
      · exact List.nodup_cons.mpr ⟨hr, hnd⟩
      · simp only [List.length_cons]
        omega

theorem chain_nodup_length {cat : List SchemaRow} {s : SchemaRow}
    {l : List SchemaRow} (h : ChainUp cat s l) (hnd : l.Nodup) :
    l.length ≤ cat.length := by
  have hsub : l.toFinset ⊆ cat.toFinset := by
    intro x hx
    exact List.mem_toFinset.mpr (chain_mem_cat h x (List.mem_toFinset.mp hx))
  have h1 : l.toFinset.card = l.length := List.toFinset_card_of_nodup hnd
  have h2 : cat.toFinset.card ≤ cat.length := List.toFinset_card_le cat
  have h3 := Finset.card_le_card hsub
  omega

theorem Reach_chain {cat : List SchemaRow} {s : SchemaRow}
    (h : Reach cat s) : ∃ l, ChainUp cat s l := by
  induction h with
  | root s hmem hp => exact ⟨[s], .root s hmem hp⟩
  | child p s hrp hmem hp ih =>
    obtain ⟨l, hl⟩ := ih
    exact ⟨s :: l, .step p s l hl hmem hp⟩

theorem chain_level {cat : List SchemaRow} {s : SchemaRow} {l : List SchemaRow}
    (h : ChainUp cat s l) :
    ∃ hr ∈ levelRows cat (l.length - 1), hr.row = s := by
  induction h with
  | root q hmem hp =>
    refine ⟨⟨0, q.table_name, q⟩, ?_, rfl⟩
    simp only [List.length_cons, List.length_nil, Nat.add_sub_cancel, levelRows,
      List.mem_map]
    exact ⟨q, List.mem_filter.mpr ⟨hmem, by simp [hp]⟩, rfl⟩
  | step q r l0 hc hmem hp ih =>
    obtain ⟨hr0, hr0mem, hr0row⟩ := ih
    obtain ⟨t, rfl⟩ := chain_head hc
    refine ⟨⟨hr0.level + 1, hr0.path ++ "." ++ r.table_name, r⟩, ?_, rfl⟩
    simp only [List.length_cons, Nat.add_sub_cancel] at hr0mem ⊢
    rw [levelRows]
    refine List.mem_flatMap.mpr ⟨hr0, ?_, ?_⟩
    · simpa using hr0mem
    · simp only [childrenOf, List.mem_map]
      exact ⟨r, List.mem_filter.mpr ⟨hmem, by simp [hp, hr0row]⟩, rfl⟩

theorem level_reach {cat : List SchemaRow} :
    ∀ (k : Nat), ∀ hr ∈ levelRows cat k, Reach cat hr.row := by
  intro k
  induction k with
  | zero =>
    intro hr h
    simp only [levelRows, List.mem_map] at h
    obtain ⟨s, hs, rfl⟩ := h
    exact .root s (List.mem_filter.mp hs).1 (by simpa using (List.mem_filter.mp hs).2)
  | succ k ih =>
    intro hr h
    simp only [levelRows, List.mem_flatMap] at h
    obtain ⟨h0, h0mem, hc⟩ := h
    simp only [childrenOf, List.mem_map] at hc
    obtain ⟨s, hs, rfl⟩ := hc
    exact .child h0.row s (ih h0 h0mem) (List.mem_filter.mp hs).1
      (by simpa using (List.mem_filter.mp hs).2)

theorem mem_hier_iff {cat : List SchemaRow} {hr : HRow} :
    hr ∈ table_hierarchy cat ↔ ∃ k ≤ cat.length, hr ∈ levelRows cat k := by
  rw [table_hierarchy, (List.mergeSort_perm _ _).mem_iff, List.mem_flatMap]
  constructor
  · rintro ⟨k, hk, hmem⟩
    have := List.mem_range.mp hk
    exact ⟨k, by omega, hmem⟩
  · rintro ⟨k, hk, hmem⟩
    exact ⟨k, List.mem_range.mpr (by omega), hmem⟩

theorem level_succ_inv {cat : List SchemaRow} {k : Nat} {hr : HRow}
    (h : hr ∈ levelRows cat (k + 1)) :
    ∃ h0 ∈ levelRows cat k, hr.row.parent_table = some h0.row.table_name ∧
      hr.level = h0.level + 1 ∧ hr.path = h0.path ++ "." ++ hr.row.table_name := by
  simp only [levelRows, List.mem_flatMap] at h
  obtain ⟨h0, h0mem, hc⟩ := h
  simp only [childrenOf, List.mem_map] at hc
  obtain ⟨s, hs, rfl⟩ := hc
  exact ⟨h0, h0mem, by simpa using (List.mem_filter.mp hs).2, rfl, rfl⟩

theorem level_zero_inv {cat : List SchemaRow} {hr : HRow}
    (h : hr ∈ levelRows cat 0) :
    hr.row.parent_table = none ∧ hr.level = 0 ∧ hr.path = hr.row.table_name := by
  simp only [levelRows, List.mem_map] at h
  obtain ⟨s, hs, rfl⟩ := h
  exact ⟨by simpa using (List.mem_filter.mp hs).2, rfl, rfl⟩

theorem hier_sorted (cat : List SchemaRow) :
    (table_hierarchy cat).Pairwise (fun a b => a.path ≤ b.path) := by
  have h := @List.sorted_mergeSort HRow (fun a b => decide (a.path ≤ b.path))
    (by intro a b c hab hbc
        exact decide_eq_true (le_trans (of_decide_eq_true hab) (of_decide_eq_true hbc)))
    (by intro a b
        rcases le_total a.path b.path with h | h
        · simp [h]
        · simp [h])
    ((List.range (cat.length + 1)).flatMap (levelRows cat))
  rw [table_hierarchy]
  exact h.imp (fun hab => of_decide_eq_true hab)

/-- C7: the `table_hierarchy` view holds exactly the catalog rows reachable
from the parentless roots via `parent_table` links; a parentless row appears
at level 0 with path equal to its own table name; a row with a parent appears
at its parent hierarchy row level + 1 with the parent path extended by "."
and its own name; and the view rows are ordered by path. -/
theorem C7_hierarchy_view_characterization (cat : List SchemaRow) :
    (∀ s, (∃ hr ∈ table_hierarchy cat, hr.row = s) ↔ Reach cat s) ∧
    (∀ hr ∈ table_hierarchy cat,
      (hr.row.parent_table = none → hr.level = 0 ∧ hr.path = hr.row.table_name) ∧
      (∀ p, hr.row.parent_table = some p → ∃ hp ∈ table_hierarchy cat,
        hp.row.table_name = p ∧ hr.level = hp.level + 1 ∧
        hr.path = hp.path ++ "." ++ hr.row.table_name)) ∧
    (table_hierarchy cat).Pairwise (fun a b => a.path ≤ b.path) := by
  refine ⟨?_, ?_, hier_sorted cat⟩
  · intro s
    constructor
    · rintro ⟨hr, hmem, rfl⟩
      obtain ⟨k, _, hk⟩ := mem_hier_iff.mp hmem
      exact level_reach k hr hk
    · intro hreach
      obtain ⟨l, hl⟩ := Reach_chain hreach
      obtain ⟨l2, hl2, hnd, _⟩ := chain_compress hl
      have hlen := chain_nodup_length hl2 hnd
      obtain ⟨hr, hrmem, hrrow⟩ := chain_level hl2
      exact ⟨hr, mem_hier_iff.mpr ⟨l2.length - 1, by omega, hrmem⟩, hrrow⟩
  · intro hr hmem
    obtain ⟨k, hkle, hk⟩ := mem_hier_iff.mp hmem
    cases k with
    | zero =>
      obtain ⟨hp0, hlvl, hpath⟩ := level_zero_inv hk
      constructor
      · intro _; exact ⟨hlvl, hpath⟩
      · intro p hp
        rw [hp0] at hp
        exact Option.noConfusion hp
    | succ k =>
      obtain ⟨h0, h0mem, hpar, hlvl, hpath⟩ := level_succ_inv hk
      constructor
      · intro hnone
        rw [hpar] at hnone
        exact Option.noConfusion hnone
      · intro p hp
        rw [hpar] at hp
        injection hp with hp
        exact ⟨h0, mem_hier_iff.mpr ⟨k, by omega, h0mem⟩, hp, hlvl, hpath⟩
